/-
Verification of the Minesweeper game engine (src/minesweeper.ts).

The engine is embedded shallowly:
  * the board is a total function `Nat → Nat → Cell`; the source only ever
    reads or writes indices inside the `rows × cols` rectangle, so cells
    outside it keep the default value;
  * `Math.random()`-driven mine placement is modelled by an explicit stream
    `rng : Nat → Nat × Nat` of picks together with fuel for the rejection
    sampling loop (`Math.floor(Math.random() * rows)` always lands in
    `[0, rows)`, which theorems assume as a hypothesis on the stream);
  * `new Date()` is modelled by a `now : Nat` argument to each operation;
  * the recursive flood fill is embedded with explicit fuel
    (`revealCellF`), and we prove that fuel `unrevealedCount s + 1`
    always suffices, which is the termination argument of the source;
  * `getCellImage` / `getGameStatusImage` return the image *key* looked up
    in the image cache; the cache itself (raw SVG bytes read from disk) is
    outside the game logic.
-/
import Mathlib

namespace Minesweeper

/-- A cell of the board, as in the source interface `Cell`. -/
structure Cell where
  isMine : Bool
  isRevealed : Bool
  adjacentMines : Nat
  deriving DecidableEq, Repr

/-- The default cell produced by `initializeBoard`. -/
def defaultCell : Cell := ⟨false, false, 0⟩

/-- Game state union type of the source: playing, won or lost. -/
inductive GameState where
  | playing
  | won
  | lost
  deriving DecidableEq, Repr

/-- Image keys.  `cellRevealed n` models the template string
`cell_revealed_${n}` (the source only ever produces `n ≤ 8`). -/
inductive ImageKey where
  | cellHidden
  | cellRevealed (n : Nat)
  | mineNormal
  | mineHit
  | statusPlaying
  | statusWon
  | statusLost
  deriving DecidableEq, Repr

/-- A board: total function on coordinates; only the `rows × cols`
rectangle is ever touched by the engine. -/
def Board := Nat → Nat → Cell

/-- The whole engine state (the mutable fields of class `Minesweeper`). -/
structure State where
  rows : Nat
  cols : Nat
  mineCount : Nat
  board : Board
  gameState : GameState
  remainingNonMineCells : Int
  hitMineCoordinates : Option (Int × Int)
  startTime : Nat
  endTime : Option Nat

/-- The eight neighbor offsets (static `DIRECTIONS`). -/
def DIRECTIONS : List (Int × Int) :=
  [(-1, -1), (-1, 0), (-1, 1), (0, -1), (0, 1), (1, -1), (1, 0), (1, 1)]

/-- Source method `isValidPosition(row, col)`. -/
def isValidPosition (s : State) (row col : Int) : Prop :=
  0 ≤ row ∧ row < (s.rows : Int) ∧ 0 ≤ col ∧ col < (s.cols : Int)

instance (s : State) (row col : Int) : Decidable (isValidPosition s row col) := by
  unfold isValidPosition; infer_instance

/-- The cell the source accesses as `this.board[row][col]` (only ever used
at valid positions, where `toNat` is faithful). -/
def cellAt (s : State) (row col : Int) : Cell :=
  s.board row.toNat col.toNat

/-- Pointwise board update. -/
def updateCell (b : Board) (r c : Nat) (cell : Cell) : Board :=
  fun i j => if i = r ∧ j = c then cell else b i j

/-- Source method `initializeBoard()`: every cell defaulted. -/
def initializeBoard : Board := fun _ _ => defaultCell

/-- First phase of `placeMines()`: clear `isMine` on the whole grid. -/
def clearMines (rows cols : Nat) (b : Board) : Board :=
  fun i j =>
    if i < rows ∧ j < cols then { b i j with isMine := false } else b i j

/-- The while loop (rejection sampling) of
`placeMines()`.  `rng i` is the `i`-th pair of `Math.floor(Math.random()*rows)`
/ `Math.floor(Math.random()*cols)` draws; `fuel` bounds the number of loop
iterations and `none` means the loop did not finish within the fuel. -/
def placeMinesLoop (mineCount : Nat) (rng : Nat → Nat × Nat) :
    Nat → Nat → Nat → Board → Option Board
  | fuel, i, placed, b =>
    if placed < mineCount then
      match fuel with
      | 0 => none
      | fuel + 1 =>
        let pick := rng i
        if (b pick.1 pick.2).isMine then
          placeMinesLoop mineCount rng fuel (i + 1) placed b
        else
          placeMinesLoop mineCount rng fuel (i + 1) (placed + 1)
            (updateCell b pick.1 pick.2 { b pick.1 pick.2 with isMine := true })
    else some b

/-- Source method `placeMines()`: clear, then sample until `mineCount` mines are placed. -/
def placeMines (rows cols mineCount : Nat) (rng : Nat → Nat × Nat)
    (fuel : Nat) (b : Board) : Option Board :=
  placeMinesLoop mineCount rng fuel 0 0 (clearMines rows cols b)

/-- Validity test used inside `calculateAdjacentMines` (free-standing form
of `isValidPosition`, before a `State` exists). -/
def validPos (rows cols : Nat) (row col : Int) : Prop :=
  0 ≤ row ∧ row < (rows : Int) ∧ 0 ≤ col ∧ col < (cols : Int)

instance (rows cols : Nat) (row col : Int) : Decidable (validPos rows cols row col) := by
  unfold validPos; infer_instance

/-- The inner neighbour-counting loop of `calculateAdjacentMines`. -/
def countAdjacent (rows cols : Nat) (b : Board) (row col : Nat) : Nat :=
  (DIRECTIONS.filter (fun d =>
    decide (validPos rows cols ((row : Int) + d.1) ((col : Int) + d.2)) &&
      (b ((row : Int) + d.1).toNat ((col : Int) + d.2).toNat).isMine)).length

/-- Source method `calculateAdjacentMines()`: reset each in-grid adjacency count, skip mines,
store the neighbour count for non-mines. -/
def calculateAdjacentMines (rows cols : Nat) (b : Board) : Board :=
  fun i j =>
    if i < rows ∧ j < cols then
      if (b i j).isMine then { b i j with adjacentMines := 0 }
      else { b i j with adjacentMines := countAdjacent rows cols b i j }
    else b i j

/-- Source method `initializeNewGame()` (also the successful tail of the constructor):
fresh board, mines, adjacency, timers.  `none` when mine placement did not
finish within `fuel`. -/
def initializeNewGame (rows cols mineCount : Nat) (rng : Nat → Nat × Nat)
    (fuel now : Nat) : Option State :=
  match placeMines rows cols mineCount rng fuel initializeBoard with
  | none => none
  | some b =>
    some
      { rows := rows
        cols := cols
        mineCount := mineCount
        board := calculateAdjacentMines rows cols b
        gameState := .playing
        remainingNonMineCells := (rows * cols : Int) - (mineCount : Int)
        hitMineCoordinates := none
        startTime := now
        endTime := none }

/-- The constructor `new Minesweeper(rows, cols, mineCount)`: the three
validation checks, then the same initialization as `initializeNewGame`.
`.error` is a thrown construction error; `.ok none` means mine placement
ran out of fuel. -/
def new (rows cols mineCount : Int) (rng : Nat → Nat × Nat)
    (fuel now : Nat) : Except String (Option State) :=
  if rows ≤ 0 ∨ cols ≤ 0 then
    .error "Board dimensions (rows, cols) must be positive integers."
  else if mineCount < 0 then
    .error "Mine count cannot be negative."
  else if mineCount > rows * cols then
    .error "Mine count cannot exceed the total number of cells (rows * cols)."
  else
    .ok (initializeNewGame rows.toNat cols.toNat mineCount.toNat rng fuel now)

/-- Source method `revealAllCells()`. -/
def revealAllCells (s : State) : State :=
  { s with
    board := fun i j =>
      if i < s.rows ∧ j < s.cols then { s.board i j with isRevealed := true }
      else s.board i j }

/-- Mark the single cell at a (valid) position revealed. -/
def markRevealed (s : State) (row col : Int) : State :=
  { s with
    board := updateCell s.board row.toNat col.toNat
      { s.board row.toNat col.toNat with isRevealed := true } }

/-- The losing branch of `revealCell` (after the cell was marked revealed):
state `lost`, end time, hit-mine coordinates, whole board revealed. -/
def loseUpdate (s : State) (row col : Int) (now : Nat) : State :=
  revealAllCells
    { s with
      gameState := .lost
      endTime := some now
      hitMineCoordinates := some (row, col) }

/-- The winning branch of `revealCell`: state `won`, end time, whole board
revealed. -/
def winUpdate (s : State) (now : Nat) : State :=
  revealAllCells { s with gameState := .won, endTime := some now }

/-- Decrement step of the source, the statement this.remainingNonMineCells minus one. -/
def decRemaining (s : State) : State :=
  { s with remainingNonMineCells := s.remainingNonMineCells - 1 }

/-- Sequential flood fill over a list of neighbour offsets; `f` is the
recursive reveal at one less fuel. -/
def revealList (f : State → Int → Int → Option State) :
    State → Int → Int → List (Int × Int) → Option State
  | s, _, _, [] => some s
  | s, row, col, d :: ds =>
    match f s (row + d.1) (col + d.2) with
    | none => none
    | some s' => revealList f s' row col ds

/-- Source method `revealCell(row, col)`, fueled.  Mirrors the source line by line:
guard, mark revealed, mine → lose, decrement, flood fill when
`adjacentMines == 0`, win check. -/
def revealCellF (now : Nat) : Nat → State → Int → Int → Option State
  | 0, _, _, _ => none
  | fuel + 1, s, row, col =>
    if s.gameState ≠ .playing ∨ ¬isValidPosition s row col ∨
        (cellAt s row col).isRevealed then
      some s
    else if (cellAt s row col).isMine then
      some (loseUpdate (markRevealed s row col) row col now)
    else
      match
        (if (cellAt s row col).adjacentMines = 0 then
          revealList (revealCellF now fuel)
            (decRemaining (markRevealed s row col)) row col DIRECTIONS
        else some (decRemaining (markRevealed s row col)))
      with
      | none => none
      | some s3 =>
        some (if s3.remainingNonMineCells = 0 then winUpdate s3 now else s3)

/-- The coordinate rectangle of the board. -/
def grid (s : State) : Finset (Nat × Nat) :=
  Finset.range s.rows ×ˢ Finset.range s.cols

/-- Number of unrevealed cells of the grid (the termination measure of the
flood fill). -/
def unrevealedCount (s : State) : Nat :=
  ((grid s).filter (fun p => ¬(s.board p.1 p.2).isRevealed)).card

/-- Source method `revealCell(row, col)`: the fueled reveal at the always-sufficient fuel
`unrevealedCount s + 1` (sufficiency is proved below). -/
def revealCell (s : State) (row col : Int) (now : Nat) : State :=
  (revealCellF now (unrevealedCount s + 1) s row col).getD s

/-- Source method `checkWinCondition()`. -/
def checkWinCondition (s : State) : Prop := s.remainingNonMineCells = 0

/-- Source method `resetGame()`: throws while playing, otherwise reinitializes with the
same dimensions and mine count.  `.ok none` = placement fuel exhausted. -/
def resetGame (s : State) (rng : Nat → Nat × Nat) (fuel now : Nat) :
    Except String (Option State) :=
  if s.gameState = .playing then
    .error "Cannot reset the game while it is still in progress."
  else
    .ok (initializeNewGame s.rows s.cols s.mineCount rng fuel now)

/-- Source method `getCellImage(row, col)` at the level of image keys. -/
def getCellImage (s : State) (row col : Int) : Option ImageKey :=
  if ¬isValidPosition s row col then none
  else if ¬(cellAt s row col).isRevealed then some .cellHidden
  else if (cellAt s row col).isMine then
    if s.gameState = .lost then
      if s.hitMineCoordinates = some (row, col) then some .mineHit
      else some .mineNormal
    else if s.gameState = .won then some .mineNormal
    else some .mineHit
  else some (.cellRevealed (cellAt s row col).adjacentMines)

/-- Source method `getGameStatusImage()` at the level of image keys. -/
def getGameStatusImage (s : State) : Option ImageKey :=
  match s.gameState with
  | .playing => some .statusPlaying
  | .won => some .statusWon
  | .lost => some .statusLost

/-! ### Observables used to state the claims -/

/-- Number of mines actually on the board. -/
def boardMines (s : State) : Nat :=
  ((grid s).filter (fun p => (s.board p.1 p.2).isMine)).card

/-- Number of non-mine cells not yet revealed (what
`remainingNonMineCells` is supposed to track). -/
def unrevNonMine (s : State) : Nat :=
  ((grid s).filter
    (fun p => ¬(s.board p.1 p.2).isMine ∧ ¬(s.board p.1 p.2).isRevealed)).card

/-- Every cell of the grid is revealed. -/
def allRevealed (s : State) : Prop :=
  ∀ p ∈ grid s, (s.board p.1 p.2).isRevealed = true

/-- Moore adjacency of two grid coordinates: distinct, Chebyshev
distance ≤ 1. -/
def mooreAdj (p q : Nat × Nat) : Prop :=
  p ≠ q ∧ ((p.1 : Int) - (q.1 : Int)).natAbs ≤ 1 ∧
    ((p.2 : Int) - (q.2 : Int)).natAbs ≤ 1

instance (p q : Nat × Nat) : Decidable (mooreAdj p q) := by
  unfold mooreAdj; infer_instance

/-- The true number of mines among the Moore neighbours of `p` that lie on
the board. -/
def mooreMineCount (s : State) (p : Nat × Nat) : Nat :=
  ((grid s).filter (fun q => mooreAdj p q ∧ (s.board q.1 q.2).isMine)).card

/-! ### Basic lemmas about the board primitives -/

theorem updateCell_same (b : Board) (r c : Nat) (cell : Cell) :
    updateCell b r c cell r c = cell := by
  simp [updateCell]

theorem updateCell_other (b : Board) (r c : Nat) (cell : Cell) {i j : Nat}
    (h : ¬(i = r ∧ j = c)) : updateCell b r c cell i j = b i j := by
  simp only [updateCell, if_neg h]

theorem mem_grid {s : State} {p : Nat × Nat} :
    p ∈ grid s ↔ p.1 < s.rows ∧ p.2 < s.cols := by
  cases p with
  | mk i j => simp [grid, Finset.mem_product]

/-! ### Mine placement -/

/-- Number of mines of a raw board inside a `rows × cols` rectangle. -/
def rawMines (rows cols : Nat) (b : Board) : Nat :=
  ((Finset.range rows ×ˢ Finset.range cols).filter
    (fun p => (b p.1 p.2).isMine)).card

theorem rawMines_update_fresh (rows cols : Nat) (b : Board) (p : Nat × Nat)
    (hr : p.1 < rows) (hc : p.2 < cols) (hm : (b p.1 p.2).isMine = false) :
    rawMines rows cols
      (updateCell b p.1 p.2 { b p.1 p.2 with isMine := true }) =
    rawMines rows cols b + 1 := by
  unfold rawMines
  have hset :
      ((Finset.range rows ×ˢ Finset.range cols).filter
        (fun q =>
          (updateCell b p.1 p.2 { b p.1 p.2 with isMine := true } q.1 q.2).isMine)) =
      insert p ((Finset.range rows ×ˢ Finset.range cols).filter
        (fun q => (b q.1 q.2).isMine)) := by
    ext q
    by_cases hq : q.1 = p.1 ∧ q.2 = p.2
    · have hqp : q = p := Prod.ext hq.1 hq.2
      subst hqp
      simp [Finset.mem_filter, Finset.mem_insert, updateCell, Finset.mem_product, hr, hc]
    · simp only [Finset.mem_filter, Finset.mem_insert, updateCell, if_neg hq,
        Finset.mem_product, Finset.mem_range]
      constructor
      · rintro ⟨hg, hmine⟩
        exact Or.inr ⟨hg, hmine⟩
      · rintro (hqp | ⟨hg, hmine⟩)
        · exact absurd ⟨congrArg Prod.fst hqp, congrArg Prod.snd hqp⟩ hq
        · exact ⟨hg, hmine⟩
  rw [hset, Finset.card_insert_of_not_mem]
  intro hmem
  rw [Finset.mem_filter] at hmem
  rw [hm] at hmem
  exact Bool.false_ne_true hmem.2

/-- Full specification of the rejection-sampling loop: when it returns a
board, exactly `mineCount` mines are on the grid, and nothing but the
`isMine` flags of grid cells changed. -/
theorem placeMinesLoop_spec (rows cols mineCount : Nat) (rng : Nat → Nat × Nat)
    (hrng : ∀ n, (rng n).1 < rows ∧ (rng n).2 < cols) :
    ∀ fuel idx placed b b',
      placeMinesLoop mineCount rng fuel idx placed b = some b' →
      rawMines rows cols b = placed → placed ≤ mineCount →
      rawMines rows cols b' = mineCount ∧
      (∀ i j, (b' i j).isRevealed = (b i j).isRevealed ∧
        (b' i j).adjacentMines = (b i j).adjacentMines) ∧
      (∀ i j, ¬(i < rows ∧ j < cols) → b' i j = b i j) := by
  intro fuel
  induction fuel with
  | zero =>
    intro idx placed b b' hrun hcard hle
    rw [placeMinesLoop] at hrun
    by_cases hlt : placed < mineCount
    · rw [if_pos hlt] at hrun; exact absurd hrun (by simp)
    · rw [if_neg hlt] at hrun
      have hb : b = b' := by injection hrun
      subst hb
      exact ⟨by omega, fun i j => ⟨rfl, rfl⟩, fun i j _ => rfl⟩
  | succ fuel ih =>
    intro idx placed b b' hrun hcard hle
    rw [placeMinesLoop] at hrun
    by_cases hlt : placed < mineCount
    · rw [if_pos hlt] at hrun
      simp only at hrun
      by_cases hmine : (b (rng idx).1 (rng idx).2).isMine
      · rw [if_pos hmine] at hrun
        exact ih (idx + 1) placed b b' hrun hcard hle
      · rw [if_neg hmine] at hrun
        have hmine' : (b (rng idx).1 (rng idx).2).isMine = false :=
          Bool.not_eq_true _ ▸ (by simpa using hmine)
        have hcard' :
            rawMines rows cols
              (updateCell b (rng idx).1 (rng idx).2
                { b (rng idx).1 (rng idx).2 with isMine := true }) = placed + 1 := by
          rw [rawMines_update_fresh rows cols b (rng idx) (hrng idx).1 (hrng idx).2 hmine',
            hcard]
        obtain ⟨h1, h2, h3⟩ := ih (idx + 1) (placed + 1) _ b' hrun hcard' hlt
        refine ⟨h1, fun i j => ?_, fun i j hout => ?_⟩
        · obtain ⟨h2r, h2a⟩ := h2 i j
          by_cases hij : i = (rng idx).1 ∧ j = (rng idx).2
          · rw [h2r, h2a]
            obtain ⟨hi, hj⟩ := hij; subst hi; subst hj
            rw [updateCell_same]
            exact ⟨rfl, rfl⟩
          · rw [h2r, h2a, updateCell_other _ _ _ _ hij]
            exact ⟨rfl, rfl⟩
        · rw [h3 i j hout, updateCell_other]
          intro ⟨hi, hj⟩
          subst hi; subst hj
          exact hout ⟨(hrng idx).1, (hrng idx).2⟩
    · rw [if_neg hlt] at hrun
      have hb : b = b' := by injection hrun
      subst hb
      exact ⟨by omega, fun i j => ⟨rfl, rfl⟩, fun i j _ => rfl⟩

/-! ### Adjacency computation -/

theorem mem_DIRECTIONS {d : Int × Int} :
    d ∈ DIRECTIONS ↔ d ≠ (0, 0) ∧ d.1.natAbs ≤ 1 ∧ d.2.natAbs ≤ 1 := by
  constructor
  · intro hd
    simp only [DIRECTIONS, List.mem_cons, List.not_mem_nil, or_false] at hd
    rcases hd with h | h | h | h | h | h | h | h <;> subst h <;>
      exact ⟨by decide, by decide, by decide⟩
  · rintro ⟨hne, h1, h2⟩
    obtain ⟨a, e⟩ := d
    have ha : a = -1 ∨ a = 0 ∨ a = 1 := by omega
    have he : e = -1 ∨ e = 0 ∨ e = 1 := by omega
    have hae : ¬(a = 0 ∧ e = 0) := by
      rintro ⟨h, h'⟩; exact hne (by rw [h, h'])
    rcases ha with h | h | h <;> rcases he with h' | h' | h' <;>
      subst h <;> subst h' <;> revert hae <;> decide

theorem DIRECTIONS_nodup : DIRECTIONS.Nodup := by decide

/-- The neighbour-counting loop of `calculateAdjacentMines` computes the
true Moore-neighbourhood mine count. -/
theorem countAdjacent_eq (rows cols : Nat) (b : Board) (r c : Nat) :
    countAdjacent rows cols b r c =
      ((Finset.range rows ×ˢ Finset.range cols).filter
        (fun q => mooreAdj (r, c) q ∧ (b q.1 q.2).isMine)).card := by
  classical
  unfold countAdjacent
  have hnodup :
      (DIRECTIONS.filter (fun d =>
        decide (validPos rows cols ((r : Int) + d.1) ((c : Int) + d.2)) &&
          (b ((r : Int) + d.1).toNat ((c : Int) + d.2).toNat).isMine)).Nodup :=
    DIRECTIONS_nodup.filter _
  rw [← List.toFinset_card_of_nodup hnodup]
  refine Finset.card_nbij'
    (fun d => (((r : Int) + d.1).toNat, ((c : Int) + d.2).toNat))
    (fun q => ((q.1 : Int) - (r : Int), (q.2 : Int) - (c : Int)))
    ?_ ?_ ?_ ?_
  · intro d hd
    dsimp only
    simp only [List.mem_toFinset, List.mem_filter, Bool.and_eq_true,
      decide_eq_true_eq, validPos] at hd
    obtain ⟨hdir, ⟨hv1, hv2, hv3, hv4⟩, hmine⟩ := hd
    obtain ⟨hne, hd1, hd2⟩ := mem_DIRECTIONS.mp hdir
    have hne' : ¬(d.1 = 0 ∧ d.2 = 0) := by
      rintro ⟨h1, h2⟩
      exact hne (Prod.ext h1 h2)
    simp only [Finset.mem_filter, Finset.mem_product, Finset.mem_range, mooreAdj]
    refine ⟨⟨by omega, by omega⟩, ⟨?_, by omega, by omega⟩, hmine⟩
    intro hq
    rw [Prod.mk.injEq] at hq
    obtain ⟨h1, h2⟩ := hq
    exact hne' ⟨by omega, by omega⟩
  · intro q hq
    dsimp only
    simp only [Finset.mem_filter, Finset.mem_product, Finset.mem_range,
      mooreAdj] at hq
    obtain ⟨⟨hq1, hq2⟩, ⟨hne, hm1, hm2⟩, hmine⟩ := hq
    simp only [List.mem_toFinset, List.mem_filter, Bool.and_eq_true,
      decide_eq_true_eq, validPos]
    refine ⟨mem_DIRECTIONS.mpr ⟨?_, by omega, by omega⟩,
      ⟨by omega, by omega, by omega, by omega⟩, ?_⟩
    · intro h0
      rw [Prod.mk.injEq] at h0
      obtain ⟨h1, h2⟩ := h0
      refine hne (Prod.ext ?_ ?_) <;> dsimp only <;> omega
    · have e1 : ((r : Int) + ((q.1 : Int) - (r : Int))).toNat = q.1 := by omega
      have e2 : ((c : Int) + ((q.2 : Int) - (c : Int))).toNat = q.2 := by omega
      rw [e1, e2]
      exact hmine
  · intro d hd
    dsimp only
    simp only [List.mem_toFinset, List.mem_filter, Bool.and_eq_true,
      decide_eq_true_eq, validPos] at hd
    obtain ⟨_, ⟨hv1, hv2, hv3, hv4⟩, _⟩ := hd
    refine Prod.ext ?_ ?_ <;> dsimp only <;> omega
  · intro q hq
    dsimp only
    simp only [Finset.mem_filter, Finset.mem_product, Finset.mem_range] at hq
    obtain ⟨⟨hq1, hq2⟩, _⟩ := hq
    refine Prod.ext ?_ ?_ <;> dsimp only <;> omega

theorem calculateAdjacentMines_isMine (rows cols : Nat) (b : Board) (i j : Nat) :
    (calculateAdjacentMines rows cols b i j).isMine = (b i j).isMine := by
  unfold calculateAdjacentMines
  split
  · split <;> rfl
  · rfl

theorem calculateAdjacentMines_isRevealed (rows cols : Nat) (b : Board) (i j : Nat) :
    (calculateAdjacentMines rows cols b i j).isRevealed = (b i j).isRevealed := by
  unfold calculateAdjacentMines
  split
  · split <;> rfl
  · rfl

theorem calculateAdjacentMines_adj_of_mine (rows cols : Nat) (b : Board) (i j : Nat)
    (hin : i < rows ∧ j < cols) (hm : (b i j).isMine = true) :
    (calculateAdjacentMines rows cols b i j).adjacentMines = 0 := by
  unfold calculateAdjacentMines
  rw [if_pos hin, if_pos hm]

theorem calculateAdjacentMines_adj_of_not_mine (rows cols : Nat) (b : Board) (i j : Nat)
    (hin : i < rows ∧ j < cols) (hm : (b i j).isMine = false) :
    (calculateAdjacentMines rows cols b i j).adjacentMines =
      countAdjacent rows cols b i j := by
  unfold calculateAdjacentMines
  rw [if_pos hin, if_neg (by rw [hm]; exact Bool.false_ne_true)]

theorem calculateAdjacentMines_out (rows cols : Nat) (b : Board) (i j : Nat)
    (hout : ¬(i < rows ∧ j < cols)) :
    calculateAdjacentMines rows cols b i j = b i j := by
  unfold calculateAdjacentMines
  rw [if_neg hout]

theorem clearMines_initializeBoard (rows cols : Nat) (i j : Nat) :
    clearMines rows cols initializeBoard i j = defaultCell := by
  unfold clearMines initializeBoard defaultCell
  split <;> rfl

/-- Specification of `placeMines` starting from a fresh board. -/
theorem placeMines_spec (rows cols mineCount : Nat) (rng : Nat → Nat × Nat)
    (hrng : ∀ n, (rng n).1 < rows ∧ (rng n).2 < cols) (fuel : Nat) (b' : Board)
    (hrun : placeMines rows cols mineCount rng fuel initializeBoard = some b') :
    rawMines rows cols b' = mineCount ∧
    (∀ i j, (b' i j).isRevealed = false ∧ (b' i j).adjacentMines = 0) ∧
    (∀ i j, ¬(i < rows ∧ j < cols) → b' i j = defaultCell) := by
  unfold placeMines at hrun
  have hbase : rawMines rows cols (clearMines rows cols initializeBoard) = 0 := by
    unfold rawMines
    rw [Finset.card_eq_zero, Finset.filter_eq_empty_iff]
    intro p _
    rw [clearMines_initializeBoard]
    exact Bool.false_ne_true
  obtain ⟨h1, h2, h3⟩ :=
    placeMinesLoop_spec rows cols mineCount rng hrng fuel 0 0 _ b' hrun hbase
      (Nat.zero_le _)
  refine ⟨h1, fun i j => ?_, fun i j hout => ?_⟩
  · obtain ⟨hrev, hadj⟩ := h2 i j
    rw [hrev, hadj, clearMines_initializeBoard]
    exact ⟨rfl, rfl⟩
  · rw [h3 i j hout, clearMines_initializeBoard]

/-- Full specification of `initializeNewGame` (shared by the constructor
and `resetGame`). -/
theorem initializeNewGame_spec (rows cols mineCount : Nat) (rng : Nat → Nat × Nat)
    (hrng : ∀ n, (rng n).1 < rows ∧ (rng n).2 < cols) (fuel now : Nat) (s : State)
    (hrun : initializeNewGame rows cols mineCount rng fuel now = some s) :
    s.rows = rows ∧ s.cols = cols ∧ s.mineCount = mineCount ∧
    s.gameState = .playing ∧
    s.remainingNonMineCells = (rows * cols : Int) - (mineCount : Int) ∧
    s.hitMineCoordinates = none ∧ s.startTime = now ∧ s.endTime = none ∧
    boardMines s = mineCount ∧
    (∀ i j, (s.board i j).isRevealed = false) ∧
    (∀ p ∈ grid s, (s.board p.1 p.2).isMine = false →
      (s.board p.1 p.2).adjacentMines = mooreMineCount s p) ∧
    (∀ p ∈ grid s, (s.board p.1 p.2).isMine = true →
      (s.board p.1 p.2).adjacentMines = 0) := by
  unfold initializeNewGame at hrun
  cases hpm : placeMines rows cols mineCount rng fuel initializeBoard with
  | none => rw [hpm] at hrun; exact absurd hrun (by simp)
  | some b =>
    rw [hpm] at hrun
    simp only [Option.some.injEq] at hrun
    subst hrun
    obtain ⟨hmines, hcells, _⟩ :=
      placeMines_spec rows cols mineCount rng hrng fuel b hpm
    refine ⟨rfl, rfl, rfl, rfl, rfl, rfl, rfl, rfl, ?_, ?_, ?_, ?_⟩
    · -- mine count preserved by the adjacency pass
      unfold boardMines grid
      rw [← hmines]
      unfold rawMines
      congr 1
      apply Finset.filter_congr
      intro p _
      rw [calculateAdjacentMines_isMine]
    · intro i j
      rw [calculateAdjacentMines_isRevealed]
      exact (hcells i j).1
    · intro p hp hnm
      rw [mem_grid] at hp
      rw [calculateAdjacentMines_isMine] at hnm
      rw [calculateAdjacentMines_adj_of_not_mine rows cols b p.1 p.2 hp hnm,
        countAdjacent_eq]
      unfold mooreMineCount grid
      congr 1
      apply Finset.filter_congr
      intro q _
      rw [calculateAdjacentMines_isMine]
    · intro p hp hm
      rw [mem_grid] at hp
      rw [calculateAdjacentMines_isMine] at hm
      exact calculateAdjacentMines_adj_of_mine rows cols b p.1 p.2 hp hm

/-! ### Atoms of the reveal transition -/

/-- While the game is playing, no mine is revealed (claim C10's invariant). -/
def MinesHidden (s : State) : Prop :=
  ∀ i j, i < s.rows → j < s.cols → (s.board i j).isMine = true →
    (s.board i j).isRevealed = false

theorem markRevealed_rows (s : State) (row col : Int) :
    (markRevealed s row col).rows = s.rows := rfl

theorem markRevealed_board_self (s : State) (row col : Int) :
    (markRevealed s row col).board row.toNat col.toNat =
      { s.board row.toNat col.toNat with isRevealed := true } := by
  unfold markRevealed
  exact updateCell_same _ _ _ _

theorem markRevealed_board_other (s : State) (row col : Int) {i j : Nat}
    (h : ¬(i = row.toNat ∧ j = col.toNat)) :
    (markRevealed s row col).board i j = s.board i j := by
  unfold markRevealed
  exact updateCell_other _ _ _ _ h

theorem markRevealed_isMine (s : State) (row col : Int) (i j : Nat) :
    ((markRevealed s row col).board i j).isMine = (s.board i j).isMine := by
  by_cases h : i = row.toNat ∧ j = col.toNat
  · obtain ⟨h1, h2⟩ := h; subst h1; subst h2
    rw [markRevealed_board_self]
  · rw [markRevealed_board_other s row col h]

theorem markRevealed_adj (s : State) (row col : Int) (i j : Nat) :
    ((markRevealed s row col).board i j).adjacentMines =
      (s.board i j).adjacentMines := by
  by_cases h : i = row.toNat ∧ j = col.toNat
  · obtain ⟨h1, h2⟩ := h; subst h1; subst h2
    rw [markRevealed_board_self]
  · rw [markRevealed_board_other s row col h]

theorem markRevealed_isRevealed_mono (s : State) (row col : Int) (i j : Nat)
    (h : (s.board i j).isRevealed = true) :
    ((markRevealed s row col).board i j).isRevealed = true := by
  by_cases hij : i = row.toNat ∧ j = col.toNat
  · obtain ⟨h1, h2⟩ := hij; subst h1; subst h2
    rw [markRevealed_board_self]
  · rw [markRevealed_board_other s row col hij]; exact h

theorem revealAllCells_board_in (s : State) {i j : Nat}
    (h : i < s.rows ∧ j < s.cols) :
    (revealAllCells s).board i j = { s.board i j with isRevealed := true } := by
  unfold revealAllCells
  simp only [if_pos h]

theorem revealAllCells_board_out (s : State) {i j : Nat}
    (h : ¬(i < s.rows ∧ j < s.cols)) :
    (revealAllCells s).board i j = s.board i j := by
  unfold revealAllCells
  simp only [if_neg h]

theorem revealAllCells_isMine (s : State) (i j : Nat) :
    ((revealAllCells s).board i j).isMine = (s.board i j).isMine := by
  by_cases h : i < s.rows ∧ j < s.cols
  · rw [revealAllCells_board_in s h]
  · rw [revealAllCells_board_out s h]

theorem revealAllCells_adj (s : State) (i j : Nat) :
    ((revealAllCells s).board i j).adjacentMines =
      (s.board i j).adjacentMines := by
  by_cases h : i < s.rows ∧ j < s.cols
  · rw [revealAllCells_board_in s h]
  · rw [revealAllCells_board_out s h]

theorem allRevealed_revealAllCells (s : State) :
    allRevealed (revealAllCells s) := by
  intro p hp
  rw [mem_grid] at hp
  rw [revealAllCells_board_in s hp]

/-- Revealing one valid unrevealed cell removes exactly that cell from the
unrevealed set. -/
theorem unrevealedCount_markRevealed (s : State) (row col : Int)
    (hv : isValidPosition s row col)
    (hun : (cellAt s row col).isRevealed = false) :
    unrevealedCount s = unrevealedCount (markRevealed s row col) + 1 := by
  classical
  obtain ⟨hv1, hv2, hv3, hv4⟩ := hv
  unfold unrevealedCount
  have hgrid : grid (markRevealed s row col) = grid s := rfl
  rw [hgrid]
  have hset :
      (grid s).filter
        (fun p => ¬((markRevealed s row col).board p.1 p.2).isRevealed) =
      ((grid s).filter (fun p => ¬(s.board p.1 p.2).isRevealed)).erase
        (row.toNat, col.toNat) := by
    ext q
    rw [Finset.mem_erase, Finset.mem_filter, Finset.mem_filter]
    by_cases hq : q.1 = row.toNat ∧ q.2 = col.toNat
    · have hqp : q = (row.toNat, col.toNat) := Prod.ext hq.1 hq.2
      subst hqp
      rw [markRevealed_board_self]
      simp
    · rw [markRevealed_board_other s row col hq]
      constructor
      · rintro ⟨hg, hr⟩
        refine ⟨?_, hg, hr⟩
        intro he
        exact hq ⟨congrArg Prod.fst he, congrArg Prod.snd he⟩
      · rintro ⟨_, hg, hr⟩
        exact ⟨hg, hr⟩
  rw [hset, Finset.card_erase_add_one]
  rw [Finset.mem_filter, mem_grid]
  unfold cellAt at hun
  dsimp only
  refine ⟨⟨by omega, by omega⟩, ?_⟩
  rw [hun]
  exact Bool.false_ne_true

/-- Revealing one valid unrevealed non-mine cell removes exactly that cell
from the unrevealed non-mine set. -/
theorem unrevNonMine_markRevealed (s : State) (row col : Int)
    (hv : isValidPosition s row col)
    (hun : (cellAt s row col).isRevealed = false)
    (hnm : (cellAt s row col).isMine = false) :
    unrevNonMine s = unrevNonMine (markRevealed s row col) + 1 := by
  classical
  obtain ⟨hv1, hv2, hv3, hv4⟩ := hv
  unfold unrevNonMine
  have hgrid : grid (markRevealed s row col) = grid s := rfl
  rw [hgrid]
  have hset :
      (grid s).filter
        (fun p => ¬((markRevealed s row col).board p.1 p.2).isMine ∧
          ¬((markRevealed s row col).board p.1 p.2).isRevealed) =
      ((grid s).filter (fun p => ¬(s.board p.1 p.2).isMine ∧
        ¬(s.board p.1 p.2).isRevealed)).erase (row.toNat, col.toNat) := by
    ext q
    rw [Finset.mem_erase, Finset.mem_filter, Finset.mem_filter]
    by_cases hq : q.1 = row.toNat ∧ q.2 = col.toNat
    · have hqp : q = (row.toNat, col.toNat) := Prod.ext hq.1 hq.2
      subst hqp
      rw [markRevealed_board_self]
      simp
    · rw [markRevealed_board_other s row col hq]
      constructor
      · rintro ⟨hg, hr⟩
        refine ⟨?_, hg, hr⟩
        intro he
        exact hq ⟨congrArg Prod.fst he, congrArg Prod.snd he⟩
      · rintro ⟨_, hg, hr⟩
        exact ⟨hg, hr⟩
  rw [hset, Finset.card_erase_add_one]
  rw [Finset.mem_filter, mem_grid]
  unfold cellAt at hun hnm
  dsimp only
  refine ⟨⟨by omega, by omega⟩, ?_, ?_⟩
  · rw [hnm]; exact Bool.false_ne_true
  · rw [hun]; exact Bool.false_ne_true

theorem unrevNonMine_revealAllCells (s : State) :
    unrevNonMine (revealAllCells s) = 0 := by
  classical
  unfold unrevNonMine
  rw [Finset.card_eq_zero, Finset.filter_eq_empty_iff]
  intro p hp
  rw [mem_grid] at hp
  rw [revealAllCells_board_in s hp]
  intro h
  exact h.2 rfl

theorem unrevealedCount_revealAllCells (s : State) :
    unrevealedCount (revealAllCells s) = 0 := by
  classical
  unfold unrevealedCount
  rw [Finset.card_eq_zero, Finset.filter_eq_empty_iff]
  intro p hp
  rw [mem_grid] at hp
  rw [revealAllCells_board_in s hp]
  intro h
  exact h rfl

/-! ### The progress relation of a reveal call

`Progress now s t` collects everything a (possibly recursive) `revealCell`
step guarantees about the transition from `s` to `t`.  It is reflexive and
transitive, so it can be threaded through the flood-fill fold. -/

structure Progress (now : Nat) (s t : State) : Prop where
  rows_eq : t.rows = s.rows
  cols_eq : t.cols = s.cols
  mineCount_eq : t.mineCount = s.mineCount
  startTime_eq : t.startTime = s.startTime
  static_eq : ∀ i j, (t.board i j).isMine = (s.board i j).isMine ∧
    (t.board i j).adjacentMines = (s.board i j).adjacentMines
  mono : ∀ i j, (s.board i j).isRevealed = true → (t.board i j).isRevealed = true
  out_eq : ∀ i j, ¬(i < s.rows ∧ j < s.cols) → t.board i j = s.board i j
  playing_facts : t.gameState = .playing → s.gameState = .playing ∧
    t.endTime = s.endTime ∧ t.hitMineCoordinates = s.hitMineCoordinates
  endTime_cases : t.endTime = s.endTime ∨ t.endTime = some now
  finish : s.gameState = .playing → t.gameState ≠ .playing →
    allRevealed t ∧ t.endTime = some now
  inv1 : (s.gameState ≠ .lost → s.remainingNonMineCells = (unrevNonMine s : Int)) →
    t.gameState ≠ .lost → t.remainingNonMineCells = (unrevNonMine t : Int)
  inv2 : (s.gameState = .won → s.remainingNonMineCells = 0) →
    t.gameState = .won → t.remainingNonMineCells = 0
  inv3 : (s.gameState = .playing → MinesHidden s) →
    t.gameState = .playing → MinesHidden t

theorem Progress.refl (now : Nat) (s : State) : Progress now s s where
  rows_eq := rfl
  cols_eq := rfl
  mineCount_eq := rfl
  startTime_eq := rfl
  static_eq := fun _ _ => ⟨rfl, rfl⟩
  mono := fun _ _ h => h
  out_eq := fun _ _ _ => rfl
  playing_facts := fun h => ⟨h, rfl, rfl⟩
  endTime_cases := Or.inl rfl
  finish := fun hp hnp => absurd hp hnp
  inv1 := fun h => h
  inv2 := fun h => h
  inv3 := fun h => h

theorem Progress.trans {now : Nat} {a b c : State}
    (hab : Progress now a b) (hbc : Progress now b c) : Progress now a c where
  rows_eq := hbc.rows_eq.trans hab.rows_eq
  cols_eq := hbc.cols_eq.trans hab.cols_eq
  mineCount_eq := hbc.mineCount_eq.trans hab.mineCount_eq
  startTime_eq := hbc.startTime_eq.trans hab.startTime_eq
  static_eq := fun i j =>
    ⟨(hbc.static_eq i j).1.trans (hab.static_eq i j).1,
      (hbc.static_eq i j).2.trans (hab.static_eq i j).2⟩
  mono := fun i j h => hbc.mono i j (hab.mono i j h)
  out_eq := fun i j h => by
    rw [hbc.out_eq i j (by rw [hab.rows_eq, hab.cols_eq]; exact h)]
    exact hab.out_eq i j h
  playing_facts := fun hc => by
    obtain ⟨hb, he, hm⟩ := hbc.playing_facts hc
    obtain ⟨ha, he', hm'⟩ := hab.playing_facts hb
    exact ⟨ha, he.trans he', hm.trans hm'⟩
  endTime_cases := by
    rcases hbc.endTime_cases with h | h
    · rcases hab.endTime_cases with h' | h'
      · exact Or.inl (h.trans h')
      · exact Or.inr (h.trans h')
    · exact Or.inr h
  finish := fun ha hc => by
    by_cases hb : b.gameState = .playing
    · exact hbc.finish hb hc
    · obtain ⟨hrev, he⟩ := hab.finish ha hb
      constructor
      · intro p hp
        rw [mem_grid] at hp
        apply hbc.mono
        apply hrev
        rw [mem_grid, ← hbc.rows_eq, ← hbc.cols_eq]
        exact hp
      · rcases hbc.endTime_cases with h | h
        · exact h.trans he
        · exact h
  inv1 := fun h => hbc.inv1 (hab.inv1 h)
  inv2 := fun h => hbc.inv2 (hab.inv2 h)
  inv3 := fun h => hbc.inv3 (hab.inv3 h)

/-- The relation `Progress` threads through the neighbour fold of the flood fill. -/
theorem revealList_progress (now : Nat) (f : State → Int → Int → Option State)
    (hf : ∀ s r c t, f s r c = some t → Progress now s t) :
    ∀ (ds : List (Int × Int)) (s : State) (row col : Int) (t : State),
      revealList f s row col ds = some t → Progress now s t := by
  intro ds
  induction ds with
  | nil =>
    intro s row col t h
    rw [revealList] at h
    injection h with h
    rw [← h]
    exact Progress.refl now s
  | cons d ds ih =>
    intro s row col t h
    rw [revealList] at h
    cases hstep : f s (row + d.1) (col + d.2) with
    | none => rw [hstep] at h; exact absurd h (by simp)
    | some s' =>
      rw [hstep] at h
      exact (hf s _ _ s' hstep).trans (ih s' row col t h)

theorem unrevNonMine_winUpdate (s : State) (now : Nat) :
    unrevNonMine (winUpdate s now) = 0 :=
  unrevNonMine_revealAllCells _

theorem toNat_lt_of_valid {s : State} {row col : Int}
    (hvalid : isValidPosition s row col) :
    row.toNat < s.rows ∧ col.toNat < s.cols := by
  obtain ⟨h1, h2, h3, h4⟩ := hvalid
  omega

/-! Projection lemmas for the compound updates (all definitional). -/

theorem markRevealed_cols (s : State) (row col : Int) :
    (markRevealed s row col).cols = s.cols := rfl

theorem loseUpdate_board (u : State) (row col : Int) (now : Nat) (i j : Nat) :
    (loseUpdate u row col now).board i j =
      if i < u.rows ∧ j < u.cols then { u.board i j with isRevealed := true }
      else u.board i j := rfl

theorem loseUpdate_rows (u : State) (row col : Int) (now : Nat) :
    (loseUpdate u row col now).rows = u.rows := rfl

theorem loseUpdate_gameState (u : State) (row col : Int) (now : Nat) :
    (loseUpdate u row col now).gameState = .lost := rfl

theorem winUpdate_board (u : State) (now : Nat) (i j : Nat) :
    (winUpdate u now).board i j =
      if i < u.rows ∧ j < u.cols then { u.board i j with isRevealed := true }
      else u.board i j := rfl

theorem winUpdate_gameState (u : State) (now : Nat) :
    (winUpdate u now).gameState = .won := rfl

/-- The mine branch of a reveal frame makes progress. -/
theorem progress_lose (now : Nat) (s : State) (row col : Int)
    (hvalid : isValidPosition s row col) :
    Progress now s (loseUpdate (markRevealed s row col) row col now) where
  rows_eq := rfl
  cols_eq := rfl
  mineCount_eq := rfl
  startTime_eq := rfl
  static_eq := fun i j => by
    rw [loseUpdate_board]
    by_cases hin : i < (markRevealed s row col).rows ∧
        j < (markRevealed s row col).cols
    · rw [if_pos hin]
      exact ⟨markRevealed_isMine s row col i j, markRevealed_adj s row col i j⟩
    · rw [if_neg hin]
      exact ⟨markRevealed_isMine s row col i j, markRevealed_adj s row col i j⟩
  mono := fun i j h => by
    rw [loseUpdate_board]
    by_cases hin : i < (markRevealed s row col).rows ∧
        j < (markRevealed s row col).cols
    · rw [if_pos hin]
    · rw [if_neg hin]
      exact markRevealed_isRevealed_mono s row col i j h
  out_eq := fun i j h => by
    rw [loseUpdate_board, if_neg (by exact h)]
    apply markRevealed_board_other
    rintro ⟨h1, h2⟩
    subst h1; subst h2
    exact h (toNat_lt_of_valid hvalid)
  playing_facts := fun h => nomatch h
  endTime_cases := Or.inr rfl
  finish := fun _ _ => by
    refine ⟨?_, rfl⟩
    intro p hp
    rw [mem_grid] at hp
    rw [loseUpdate_board, if_pos (by exact hp)]
  inv1 := fun _ hne => absurd rfl hne
  inv2 := fun _ hwon => nomatch hwon
  inv3 := fun _ hplay => nomatch hplay

/-- Revealing a valid unrevealed non-mine cell and decrementing the counter
makes progress. -/
theorem progress_reveal_nonmine (now : Nat) (s : State) (row col : Int)
    (hplay : s.gameState = .playing) (hvalid : isValidPosition s row col)
    (hunrev : (cellAt s row col).isRevealed = false)
    (hmine : (cellAt s row col).isMine = false) :
    Progress now s (decRemaining (markRevealed s row col)) where
  rows_eq := rfl
  cols_eq := rfl
  mineCount_eq := rfl
  startTime_eq := rfl
  static_eq := fun i j =>
    ⟨markRevealed_isMine s row col i j, markRevealed_adj s row col i j⟩
  mono := fun i j h => markRevealed_isRevealed_mono s row col i j h
  out_eq := fun i j h => by
    apply markRevealed_board_other
    rintro ⟨h1, h2⟩
    subst h1; subst h2
    exact h (toNat_lt_of_valid hvalid)
  playing_facts := fun h => ⟨h, rfl, rfl⟩
  endTime_cases := Or.inl rfl
  finish := fun _ hnp => absurd hplay hnp
  inv1 := fun hinv _ => by
    have hs : s.remainingNonMineCells = (unrevNonMine s : Int) :=
      hinv (by rw [hplay]; exact fun h => nomatch h)
    have hcount := unrevNonMine_markRevealed s row col hvalid hunrev hmine
    show s.remainingNonMineCells - 1 =
      (unrevNonMine (markRevealed s row col) : Int)
    omega
  inv2 := fun _ hwon => by
    have hwon2 : s.gameState = .won := hwon
    rw [hplay] at hwon2
    exact nomatch hwon2
  inv3 := fun h _ => by
    intro i j hi hj hm
    by_cases hij : i = row.toNat ∧ j = col.toNat
    · obtain ⟨h1, h2⟩ := hij
      subst h1; subst h2
      have hm2 : ((markRevealed s row col).board row.toNat col.toNat).isMine = true := hm
      rw [markRevealed_board_self] at hm2
      unfold cellAt at hmine
      have hm3 : (s.board row.toNat col.toNat).isMine = true := hm2
      rw [hmine] at hm3
      exact absurd hm3 Bool.false_ne_true
    · have hm2 : ((markRevealed s row col).board i j).isMine = true := hm
      rw [markRevealed_board_other s row col hij] at hm2
      show ((markRevealed s row col).board i j).isRevealed = false
      rw [markRevealed_board_other s row col hij]
      exact h hplay i j hi hj hm2

/-- The win check at the end of a reveal frame makes progress. -/
theorem progress_winCheck (now : Nat) (s : State) :
    Progress now s
      (if s.remainingNonMineCells = 0 then winUpdate s now else s) := by
  by_cases h : s.remainingNonMineCells = 0
  · rw [if_pos h]
    refine
      { rows_eq := rfl
        cols_eq := rfl
        mineCount_eq := rfl
        startTime_eq := rfl
        static_eq := ?_
        mono := ?_
        out_eq := ?_
        playing_facts := fun hp => nomatch hp
        endTime_cases := Or.inr rfl
        finish := ?_
        inv1 := ?_
        inv2 := fun _ _ => h
        inv3 := fun _ hplay => nomatch hplay }
    · intro i j
      rw [winUpdate_board]
      by_cases hin : i < s.rows ∧ j < s.cols
      · rw [if_pos hin]
        exact ⟨rfl, rfl⟩
      · rw [if_neg hin]
        exact ⟨rfl, rfl⟩
    · intro i j hrev
      rw [winUpdate_board]
      by_cases hin : i < s.rows ∧ j < s.cols
      · rw [if_pos hin]
      · rw [if_neg hin]
        exact hrev
    · intro i j hout
      rw [winUpdate_board, if_neg hout]
    · intro _ _
      refine ⟨?_, rfl⟩
      intro p hp
      rw [mem_grid] at hp
      rw [winUpdate_board, if_pos (by exact hp)]
    · intro _ _
      show s.remainingNonMineCells = (unrevNonMine (winUpdate s now) : Int)
      rw [h, unrevNonMine_winUpdate]
      rfl
  · rw [if_neg h]
    exact Progress.refl now s

/-- Master progress lemma: any successful (fueled) reveal call makes
progress. -/
theorem revealF_progress (now : Nat) :
    ∀ fuel s row col t,
      revealCellF now fuel s row col = some t → Progress now s t := by
  intro fuel
  induction fuel with
  | zero =>
    intro s row col t h
    rw [revealCellF] at h
    exact absurd h (by simp)
  | succ fuel ih =>
    intro s row col t h
    rw [revealCellF] at h
    by_cases hguard : s.gameState ≠ .playing ∨ ¬isValidPosition s row col ∨
        (cellAt s row col).isRevealed
    · rw [if_pos hguard] at h
      injection h with h
      rw [← h]
      exact Progress.refl now s
    · rw [if_neg hguard] at h
      push_neg at hguard
      obtain ⟨hplay, hvalid, hunrev⟩ := hguard
      by_cases hmine : (cellAt s row col).isMine
      · rw [if_pos hmine] at h
        injection h with h
        rw [← h]
        exact progress_lose now s row col hvalid
      · rw [if_neg hmine] at h
        cases hfill : (if (cellAt s row col).adjacentMines = 0 then
            revealList (revealCellF now fuel)
              (decRemaining (markRevealed s row col)) row col DIRECTIONS
          else some (decRemaining (markRevealed s row col))) with
        | none => rw [hfill] at h; exact absurd h (by simp)
        | some s3 =>
          rw [hfill] at h
          injection h with h
          rw [← h]
          have p1 : Progress now s (decRemaining (markRevealed s row col)) :=
            progress_reveal_nonmine now s row col hplay hvalid
              (Bool.not_eq_true _ ▸ hunrev)
              (Bool.not_eq_true _ ▸ hmine)
          have p2 : Progress now (decRemaining (markRevealed s row col)) s3 := by
            by_cases hadj : (cellAt s row col).adjacentMines = 0
            · rw [if_pos hadj] at hfill
              exact revealList_progress now (revealCellF now fuel)
                (fun s r c t h => ih s r c t h) DIRECTIONS _ row col s3 hfill
            · rw [if_neg hadj] at hfill
              injection hfill with hfill
              rw [hfill]
              exact Progress.refl now s3
          exact (p1.trans p2).trans (progress_winCheck now s3)

/-- A progress step never increases the number of unrevealed cells. -/
theorem Progress.unrevealedCount_le {now : Nat} {s t : State}
    (h : Progress now s t) : unrevealedCount t ≤ unrevealedCount s := by
  unfold unrevealedCount
  apply Finset.card_le_card
  intro p hp
  rw [Finset.mem_filter, mem_grid] at hp ⊢
  obtain ⟨⟨h1, h2⟩, h3⟩ := hp
  rw [h.rows_eq] at h1
  rw [h.cols_eq] at h2
  refine ⟨⟨h1, h2⟩, ?_⟩
  intro hrev
  exact h3 (h.mono p.1 p.2 hrev)

theorem unrevealedCount_decRemaining (u : State) :
    unrevealedCount (decRemaining u) = unrevealedCount u := rfl

/-- Fuel `unrevealedCount s + 1` always suffices: the reveal recursion
terminates, because every recursive call strictly decreases the number of
unrevealed cells. -/
theorem revealF_isSome (now : Nat) :
    ∀ fuel s row col, unrevealedCount s < fuel →
      (revealCellF now fuel s row col).isSome := by
  intro fuel
  induction fuel with
  | zero => intro s row col h; omega
  | succ fuel ih =>
    intro s row col hcount
    rw [revealCellF]
    by_cases hguard : s.gameState ≠ .playing ∨ ¬isValidPosition s row col ∨
        (cellAt s row col).isRevealed
    · rw [if_pos hguard]; rfl
    · rw [if_neg hguard]
      push_neg at hguard
      obtain ⟨hplay, hvalid, hunrev⟩ := hguard
      by_cases hmine : (cellAt s row col).isMine
      · rw [if_pos hmine]; rfl
      · rw [if_neg hmine]
        have hdec : unrevealedCount s =
            unrevealedCount (decRemaining (markRevealed s row col)) + 1 := by
          rw [unrevealedCount_decRemaining]
          exact unrevealedCount_markRevealed s row col hvalid
            (Bool.not_eq_true _ ▸ hunrev)
        have hlt : unrevealedCount (decRemaining (markRevealed s row col)) < fuel := by
          omega
        by_cases hadj : (cellAt s row col).adjacentMines = 0
        · rw [if_pos hadj]
          have hlist : ∀ (ds : List (Int × Int)) (u : State) (r c : Int),
              unrevealedCount u < fuel →
              ∃ t, revealList (revealCellF now fuel) u r c ds = some t := by
            intro ds
            induction ds with
            | nil => intro u r c _; exact ⟨u, rfl⟩
            | cons d ds ihds =>
              intro u r c hu
              rw [revealList]
              have hsome := ih u (r + d.1) (c + d.2) hu
              cases hstep : revealCellF now fuel u (r + d.1) (c + d.2) with
              | none => rw [hstep] at hsome; exact absurd hsome (by simp)
              | some u2 =>
                have hle : unrevealedCount u2 ≤ unrevealedCount u :=
                  (revealF_progress now fuel u (r + d.1) (c + d.2) u2
                    hstep).unrevealedCount_le
                obtain ⟨t, ht⟩ := ihds u2 r c (by omega)
                exact ⟨t, ht⟩
          obtain ⟨t, ht⟩ := hlist DIRECTIONS
            (decRemaining (markRevealed s row col)) row col hlt
          rw [ht]
          rfl
        · rw [if_neg hadj]
          rfl

/-- Increasing the fuel does not change a successful reveal. -/
theorem revealF_fuel_mono (now : Nat) :
    ∀ fuel s row col t, revealCellF now fuel s row col = some t →
      revealCellF now (fuel + 1) s row col = some t := by
  intro fuel
  induction fuel with
  | zero =>
    intro s row col t h
    rw [revealCellF] at h
    exact absurd h (by simp)
  | succ fuel ih =>
    intro s row col t h
    rw [revealCellF] at h ⊢
    by_cases hguard : s.gameState ≠ .playing ∨ ¬isValidPosition s row col ∨
        (cellAt s row col).isRevealed
    · rw [if_pos hguard] at h ⊢; exact h
    · rw [if_neg hguard] at h ⊢
      by_cases hmine : (cellAt s row col).isMine
      · rw [if_pos hmine] at h ⊢; exact h
      · rw [if_neg hmine] at h ⊢
        have hlist : ∀ (ds : List (Int × Int)) (u : State) (r c : Int) (v : State),
            revealList (revealCellF now fuel) u r c ds = some v →
            revealList (revealCellF now (fuel + 1)) u r c ds = some v := by
          intro ds
          induction ds with
          | nil => intro u r c v hv; exact hv
          | cons d ds ihds =>
            intro u r c v hv
            rw [revealList] at hv ⊢
            cases hstep : revealCellF now fuel u (r + d.1) (c + d.2) with
            | none => rw [hstep] at hv; exact absurd hv (by simp)
            | some u2 =>
              rw [hstep] at hv
              rw [ih u (r + d.1) (c + d.2) u2 hstep]
              exact ihds u2 r c v hv
        by_cases hadj : (cellAt s row col).adjacentMines = 0
        · rw [if_pos hadj] at h ⊢
          cases hfill : revealList (revealCellF now fuel)
              (decRemaining (markRevealed s row col)) row col DIRECTIONS with
          | none => rw [hfill] at h; exact absurd h (by simp)
          | some s3 =>
            rw [hfill] at h
            rw [hlist DIRECTIONS _ row col s3 hfill]
            exact h
        · rw [if_neg hadj] at h ⊢
          exact h

theorem revealF_fuel_ge (now : Nat) {fuel fuel2 : Nat} (hle : fuel ≤ fuel2) :
    ∀ s row col t, revealCellF now fuel s row col = some t →
      revealCellF now fuel2 s row col = some t := by
  induction fuel2 with
  | zero =>
    intro s row col t h
    have : fuel = 0 := by omega
    subst this
    exact h
  | succ fuel2 ih =>
    intro s row col t h
    by_cases heq : fuel = fuel2 + 1
    · subst heq; exact h
    · exact revealF_fuel_mono now fuel2 s row col t (ih (by omega) s row col t h)

/-- The wrapper `revealCell` is the fueled reveal at any sufficient fuel. -/
theorem revealCell_eq_fuel (s : State) (row col : Int) (now : Nat)
    {fuel : Nat} (hfuel : unrevealedCount s < fuel) :
    revealCellF now fuel s row col = some (revealCell s row col now) := by
  have hsome := revealF_isSome now (unrevealedCount s + 1) s row col (by omega)
  cases hdef : revealCellF now (unrevealedCount s + 1) s row col with
  | none => rw [hdef] at hsome; exact absurd hsome (by simp)
  | some t =>
    have : revealCell s row col now = t := by
      unfold revealCell
      rw [hdef]
      rfl
    rw [this]
    exact revealF_fuel_ge now (by omega) s row col t hdef

/-- Every `revealCell` call makes progress. -/
theorem revealCell_progress (s : State) (row col : Int) (now : Nat) :
    Progress now s (revealCell s row col now) :=
  revealF_progress now (unrevealedCount s + 1) s row col _
    (revealCell_eq_fuel s row col now (by omega))

/-- The guard of `revealCell`: a call on a finished game, an out-of-bounds
position, or an already revealed cell leaves the state unchanged. -/
theorem revealCell_noop (s : State) (row col : Int) (now : Nat)
    (h : s.gameState ≠ .playing ∨ ¬isValidPosition s row col ∨
      (cellAt s row col).isRevealed = true) :
    revealCell s row col now = s := by
  unfold revealCell
  rw [revealCellF, if_pos h]
  rfl

/-- A reveal that leaves the game playing either was a no-op or leaves a
nonzero `remainingNonMineCells` (the final win check guarantees it). -/
theorem revealF_playing_remaining (now fuel : Nat) (s : State) (row col : Int)
    (t : State) (h : revealCellF now fuel s row col = some t)
    (hplay : t.gameState = .playing) :
    t = s ∨ t.remainingNonMineCells ≠ 0 := by
  cases fuel with
  | zero => rw [revealCellF] at h; exact absurd h (by simp)
  | succ fuel =>
    rw [revealCellF] at h
    by_cases hguard : s.gameState ≠ .playing ∨ ¬isValidPosition s row col ∨
        (cellAt s row col).isRevealed
    · rw [if_pos hguard] at h
      injection h with h
      exact Or.inl h.symm
    · rw [if_neg hguard] at h
      by_cases hmine : (cellAt s row col).isMine
      · rw [if_pos hmine] at h
        injection h with h
        rw [← h] at hplay
        exact nomatch hplay
      · rw [if_neg hmine] at h
        cases hfill : (if (cellAt s row col).adjacentMines = 0 then
            revealList (revealCellF now fuel)
              (decRemaining (markRevealed s row col)) row col DIRECTIONS
          else some (decRemaining (markRevealed s row col))) with
        | none => rw [hfill] at h; exact absurd h (by simp)
        | some s3 =>
          rw [hfill] at h
          injection h with h
          by_cases hrem : s3.remainingNonMineCells = 0
          · rw [if_pos hrem] at h
            rw [← h] at hplay
            exact nomatch hplay
          · rw [if_neg hrem] at h
            rw [← h]
            exact Or.inr hrem

/-- After a successful reveal that leaves the game playing, a valid target
cell is revealed. -/
theorem revealF_target_revealed (now fuel : Nat) (s : State) (row col : Int)
    (t : State) (h : revealCellF now fuel s row col = some t)
    (hplay : t.gameState = .playing)
    (hvalid : isValidPosition s row col) :
    (cellAt t row col).isRevealed = true := by
  cases fuel with
  | zero => rw [revealCellF] at h; exact absurd h (by simp)
  | succ fuel =>
    rw [revealCellF] at h
    by_cases hguard : s.gameState ≠ .playing ∨ ¬isValidPosition s row col ∨
        (cellAt s row col).isRevealed
    · rw [if_pos hguard] at h
      injection h with h
      subst h
      rcases hguard with hg | hg | hg
      · exact absurd hplay hg
      · exact absurd hvalid hg
      · exact hg
    · rw [if_neg hguard] at h
      by_cases hmine : (cellAt s row col).isMine
      · rw [if_pos hmine] at h
        injection h with h
        rw [← h] at hplay
        exact nomatch hplay
      · rw [if_neg hmine] at h
        cases hfill : (if (cellAt s row col).adjacentMines = 0 then
            revealList (revealCellF now fuel)
              (decRemaining (markRevealed s row col)) row col DIRECTIONS
          else some (decRemaining (markRevealed s row col))) with
        | none => rw [hfill] at h; exact absurd h (by simp)
        | some s3 =>
          rw [hfill] at h
          injection h with h
          have hrev2 : (cellAt (decRemaining (markRevealed s row col)) row col).isRevealed = true := by
            show ((markRevealed s row col).board row.toNat col.toNat).isRevealed = true
            rw [markRevealed_board_self]
          have p2 : Progress now (decRemaining (markRevealed s row col)) s3 := by
            by_cases hadj : (cellAt s row col).adjacentMines = 0
            · rw [if_pos hadj] at hfill
              exact revealList_progress now (revealCellF now fuel)
                (fun s r c t h => revealF_progress now fuel s r c t h)
                DIRECTIONS _ row col s3 hfill
            · rw [if_neg hadj] at hfill
              injection hfill with hfill
              rw [hfill]
              exact Progress.refl now s3
          have p3 : Progress now s3 t := by
            rw [← h]
            exact progress_winCheck now s3
          exact (p2.trans p3).mono row.toNat col.toNat hrev2



/-! ### Zero-closure: the flood fill leaves no revealed zero cell with an
unrevealed neighbour -/

/-- Every revealed zero-adjacency non-mine cell has all its in-grid Moore
neighbours revealed, up to the pending obligations `E`. -/
def ZeroClosedE (s : State) (E : Nat × Nat → Nat × Nat → Prop) : Prop :=
  ∀ p ∈ grid s, (s.board p.1 p.2).isRevealed = true →
    (s.board p.1 p.2).isMine = false →
    (s.board p.1 p.2).adjacentMines = 0 →
    ∀ q ∈ grid s, mooreAdj p q →
      (s.board q.1 q.2).isRevealed = true ∨ E p q

/-- Every revealed zero-adjacency non-mine cell has all its in-grid Moore
neighbours revealed. -/
def ZeroClosed (s : State) : Prop := ZeroClosedE s (fun _ _ => False)

theorem zce_of_allRevealed (u : State) (E : Nat × Nat → Nat × Nat → Prop)
    (h : allRevealed u) : ZeroClosedE u E := by
  intro p _ _ _ _ q hq _
  exact Or.inl (h q hq)

theorem allRevealed_loseUpdate (u : State) (row col : Int) (now : Nat) :
    allRevealed (loseUpdate u row col now) := by
  intro p hp
  rw [mem_grid] at hp
  rw [loseUpdate_board, if_pos (by exact hp)]

theorem allRevealed_winUpdate (u : State) (now : Nat) :
    allRevealed (winUpdate u now) := by
  intro p hp
  rw [mem_grid] at hp
  rw [winUpdate_board, if_pos (by exact hp)]

theorem zce_markRevealed (s : State) (row col : Int)
    (E : Nat × Nat → Nat × Nat → Prop) (h : ZeroClosedE s E) :
    ZeroClosedE (decRemaining (markRevealed s row col))
      (fun p q => E p q ∨ p = (row.toNat, col.toNat)) := by
  intro p hp hrev hnm hadj q hq hmoore
  by_cases hpP : p = (row.toNat, col.toNat)
  · exact Or.inr (Or.inr hpP)
  · have hne : ¬(p.1 = row.toNat ∧ p.2 = col.toNat) := by
      rintro ⟨a, b⟩
      exact hpP (Prod.ext a b)
    have hb : (decRemaining (markRevealed s row col)).board p.1 p.2 =
        s.board p.1 p.2 := markRevealed_board_other s row col hne
    rw [hb] at hrev hnm hadj
    have := h p hp hrev hnm hadj q hq hmoore
    rcases this with hq2 | hq2
    · exact Or.inl (markRevealed_isRevealed_mono s row col q.1 q.2 hq2)
    · exact Or.inr (Or.inl hq2)

theorem zce_markRevealed_nonzero (s : State) (row col : Int)
    (E : Nat × Nat → Nat × Nat → Prop)
    (hadj0 : ¬(cellAt s row col).adjacentMines = 0) (h : ZeroClosedE s E) :
    ZeroClosedE (decRemaining (markRevealed s row col)) E := by
  intro p hp hrev hnm hadj q hq hmoore
  by_cases hpP : p = (row.toNat, col.toNat)
  · have hb : (decRemaining (markRevealed s row col)).board p.1 p.2 =
        { s.board row.toNat col.toNat with isRevealed := true } := by
      rw [show p.1 = row.toNat from congrArg Prod.fst hpP,
        show p.2 = col.toNat from congrArg Prod.snd hpP]
      exact markRevealed_board_self s row col
    rw [hb] at hadj
    exact absurd hadj hadj0
  · have hne : ¬(p.1 = row.toNat ∧ p.2 = col.toNat) := by
      rintro ⟨a, b⟩
      exact hpP (Prod.ext a b)
    have hb : (decRemaining (markRevealed s row col)).board p.1 p.2 =
        s.board p.1 p.2 := markRevealed_board_other s row col hne
    rw [hb] at hrev hnm hadj
    have := h p hp hrev hnm hadj q hq hmoore
    rcases this with hq2 | hq2
    · exact Or.inl (markRevealed_isRevealed_mono s row col q.1 q.2 hq2)
    · exact Or.inr hq2

theorem zce_discharge (u : State) (E : Nat × Nat → Nat × Nat → Prop)
    (P : Nat × Nat)
    (h : ZeroClosedE u (fun p q => E p q ∨ p = P))
    (hnbr : ∀ q ∈ grid u, mooreAdj P q → (u.board q.1 q.2).isRevealed = true) :
    ZeroClosedE u E := by
  intro p hp hrev hnm hadj q hq hmoore
  rcases h p hp hrev hnm hadj q hq hmoore with hq2 | hq2 | hq2
  · exact Or.inl hq2
  · exact Or.inr hq2
  · subst hq2
    exact Or.inl (hnbr q hq hmoore)

/-- Any in-grid Moore neighbour of a valid position is reached by one of the
eight direction offsets. -/
theorem moore_to_direction {s : State} {row col : Int}
    (hvalid : isValidPosition s row col) {q : Nat × Nat} (hq : q ∈ grid s)
    (hadj : mooreAdj (row.toNat, col.toNat) q) :
    ∃ d ∈ DIRECTIONS, row + d.1 = (q.1 : Int) ∧ col + d.2 = (q.2 : Int) ∧
      isValidPosition s (row + d.1) (col + d.2) := by
  obtain ⟨hv1, hv2, hv3, hv4⟩ := hvalid
  rw [mem_grid] at hq
  obtain ⟨hne, hm1, hm2⟩ := hadj
  have hm1b : ((row.toNat : Int) - (q.1 : Int)).natAbs ≤ 1 := hm1
  have hm2b : ((col.toNat : Int) - (q.2 : Int)).natAbs ≤ 1 := hm2
  have hne2 : ¬(row.toNat = q.1 ∧ col.toNat = q.2) := by
    rintro ⟨a, b⟩
    exact hne (Prod.ext a b)
  refine ⟨((q.1 : Int) - row, (q.2 : Int) - col), ?_, by dsimp only; omega,
    by dsimp only; omega, ?_⟩
  · rw [mem_DIRECTIONS]
    refine ⟨?_, by dsimp only; omega, by dsimp only; omega⟩
    intro h0
    have h1 : (q.1 : Int) - row = 0 := congrArg Prod.fst h0
    have h2 : (q.2 : Int) - col = 0 := congrArg Prod.snd h0
    exact hne2 ⟨by omega, by omega⟩
  · exact ⟨by dsimp only; omega, by dsimp only; omega, by dsimp only; omega,
      by dsimp only; omega⟩

/-- The flood fill preserves zero-closure: each frame reveals its cell,
creates obligations for its neighbours, and the recursive calls discharge
them (or the game ends with the whole board revealed). -/
theorem revealF_zeroClosed (now : Nat) :
    ∀ fuel s row col t, revealCellF now fuel s row col = some t →
      ∀ E, ZeroClosedE s E → ZeroClosedE t E := by
  intro fuel
  induction fuel with
  | zero =>
    intro s row col t h
    rw [revealCellF] at h
    exact absurd h (by simp)
  | succ fuel ih =>
    intro s row col t h E hE
    rw [revealCellF] at h
    by_cases hguard : s.gameState ≠ .playing ∨ ¬isValidPosition s row col ∨
        (cellAt s row col).isRevealed
    · rw [if_pos hguard] at h
      injection h with h
      rw [← h]
      exact hE
    · rw [if_neg hguard] at h
      push_neg at hguard
      obtain ⟨hplay, hvalid, hunrev⟩ := hguard
      by_cases hmine : (cellAt s row col).isMine
      · rw [if_pos hmine] at h
        injection h with h
        rw [← h]
        exact zce_of_allRevealed _ E (allRevealed_loseUpdate _ row col now)
      · rw [if_neg hmine] at h
        cases hfill : (if (cellAt s row col).adjacentMines = 0 then
            revealList (revealCellF now fuel)
              (decRemaining (markRevealed s row col)) row col DIRECTIONS
          else some (decRemaining (markRevealed s row col))) with
        | none => rw [hfill] at h; exact absurd h (by simp)
        | some s3 =>
          rw [hfill] at h
          injection h with h
          have hs3 : ZeroClosedE s3 E := by
            by_cases hadj : (cellAt s row col).adjacentMines = 0
            · rw [if_pos hadj] at hfill
              -- obligations for the revealed cell, discharged by the fold
              have hE2 := zce_markRevealed s row col E hE
              have hfold : ∀ (ds : List (Int × Int)) (u : State),
                  ZeroClosedE u
                    (fun p q => E p q ∨ p = (row.toNat, col.toNat)) →
                  revealList (revealCellF now fuel) u row col ds = some s3 →
                  ZeroClosedE s3
                    (fun p q => E p q ∨ p = (row.toNat, col.toNat)) ∧
                  (s3.gameState = .playing → ∀ d ∈ ds,
                    isValidPosition s3 (row + d.1) (col + d.2) →
                    (cellAt s3 (row + d.1) (col + d.2)).isRevealed = true) := by
                intro ds
                induction ds with
                | nil =>
                  intro u hu hrun
                  rw [revealList] at hrun
                  injection hrun with hrun
                  rw [← hrun]
                  exact ⟨hu, fun _ d hd => absurd hd (List.not_mem_nil d)⟩
                | cons d ds ihds =>
                  intro u hu hrun
                  rw [revealList] at hrun
                  cases hstep : revealCellF now fuel u (row + d.1) (col + d.2) with
                  | none => rw [hstep] at hrun; exact absurd hrun (by simp)
                  | some u2 =>
                    rw [hstep] at hrun
                    have hu2 := ih u (row + d.1) (col + d.2) u2 hstep _ hu
                    obtain ⟨hZ3, hproc⟩ := ihds u2 hu2 hrun
                    refine ⟨hZ3, ?_⟩
                    intro hp3 e he hv3
                    rcases List.mem_cons.mp he with he | he
                    · subst he
                      have p23 : Progress now u2 s3 :=
                        revealList_progress now (revealCellF now fuel)
                          (fun a b c d h => revealF_progress now fuel a b c d h)
                          ds u2 row col s3 hrun
                      have hu2play : u2.gameState = .playing :=
                        (p23.playing_facts hp3).1
                      have hvu : isValidPosition u (row + e.1) (col + e.2) := by
                        have p12 : Progress now u u2 :=
                          revealF_progress now fuel u _ _ u2 hstep
                        obtain ⟨a1, a2, a3, a4⟩ := hv3
                        rw [p23.rows_eq, p12.rows_eq] at a2
                        rw [p23.cols_eq, p12.cols_eq] at a4
                        exact ⟨a1, a2, a3, a4⟩
                      have hrev2 := revealF_target_revealed now fuel u
                        (row + e.1) (col + e.2) u2 hstep hu2play hvu
                      exact p23.mono _ _ hrev2
                    · exact hproc hp3 e he hv3
              obtain ⟨hZ3, hproc⟩ := hfold DIRECTIONS _ hE2 hfill
              by_cases hp3 : s3.gameState = .playing
              · apply zce_discharge s3 E (row.toNat, col.toNat) hZ3
                intro q hq hmoore
                have p23 : Progress now (decRemaining (markRevealed s row col)) s3 :=
                  revealList_progress now (revealCellF now fuel)
                    (fun a b c d h => revealF_progress now fuel a b c d h)
                    DIRECTIONS _ row col s3 hfill
                have hvalid3 : isValidPosition s3 row col := by
                  obtain ⟨a1, a2, a3, a4⟩ := hvalid
                  have hr3 : s3.rows = s.rows := p23.rows_eq
                  have hc3 : s3.cols = s.cols := p23.cols_eq
                  exact ⟨a1, by rw [hr3]; exact a2, a3, by rw [hc3]; exact a4⟩
                obtain ⟨d, hd, he1, he2, hv3⟩ :=
                  moore_to_direction hvalid3 hq hmoore
                have := hproc hp3 d hd hv3
                unfold cellAt at this
                have e1 : (row + d.1).toNat = q.1 := by omega
                have e2 : (col + d.2).toNat = q.2 := by omega
                rw [e1, e2] at this
                exact this
              · have p23 : Progress now (decRemaining (markRevealed s row col)) s3 :=
                  revealList_progress now (revealCellF now fuel)
                    (fun a b c d h => revealF_progress now fuel a b c d h)
                    DIRECTIONS _ row col s3 hfill
                have hfin := p23.finish hplay hp3
                exact zce_of_allRevealed _ E hfin.1
            · rw [if_neg hadj] at hfill
              injection hfill with hfill
              rw [← hfill]
              exact zce_markRevealed_nonzero s row col E hadj hE
          rw [← h]
          by_cases hrem : s3.remainingNonMineCells = 0
          · rw [if_pos hrem]
            exact zce_of_allRevealed _ E (allRevealed_winUpdate s3 now)
          · rw [if_neg hrem]
            exact hs3

/-! ### Zero regions and their borders -/

/-- A zero cell: on the board, not a mine, stored adjacency zero. -/
def zeroCell (s : State) (p : Nat × Nat) : Prop :=
  p ∈ grid s ∧ (s.board p.1 p.2).isMine = false ∧
    (s.board p.1 p.2).adjacentMines = 0

/-- One flood-fill expansion step between Moore-adjacent zero cells. -/
def zeroStep (s : State) (p q : Nat × Nat) : Prop :=
  zeroCell s p ∧ zeroCell s q ∧ mooreAdj p q

/-- Membership in the connected zero-region of `p0`. -/
def inZeroRegion (s : State) (p0 p : Nat × Nat) : Prop :=
  Relation.ReflTransGen (zeroStep s) p0 p

/-- The numbered border of the zero-region of `p0`: an on-board cell
Moore-adjacent to some cell of the region. -/
def inBorder (s : State) (p0 p : Nat × Nat) : Prop :=
  p ∈ grid s ∧ ∃ q, inZeroRegion s p0 q ∧ mooreAdj q p

/-- Stored adjacency counts are correct for non-mine cells. -/
def AdjCorrect (s : State) : Prop :=
  ∀ p ∈ grid s, (s.board p.1 p.2).isMine = false →
    (s.board p.1 p.2).adjacentMines = mooreMineCount s p

/-- The static board data (dimensions, mines, adjacency) of `u` agrees with
that of `s`. -/
def StaticAgree (u s : State) : Prop :=
  u.rows = s.rows ∧ u.cols = s.cols ∧
    ∀ i j, (u.board i j).isMine = (s.board i j).isMine ∧
      (u.board i j).adjacentMines = (s.board i j).adjacentMines

theorem Progress.staticAgree {now : Nat} {s t : State} (h : Progress now s t) :
    StaticAgree t s :=
  ⟨h.rows_eq, h.cols_eq, h.static_eq⟩

theorem StaticAgree.grid_eq {u s : State} (h : StaticAgree u s) :
    grid u = grid s := by
  unfold grid
  rw [h.1, h.2.1]

theorem StaticAgree.zeroCell_iff {u s : State} (h : StaticAgree u s)
    (p : Nat × Nat) : zeroCell u p ↔ zeroCell s p := by
  unfold zeroCell
  rw [h.grid_eq, (h.2.2 p.1 p.2).1, (h.2.2 p.1 p.2).2]

theorem StaticAgree.zeroRegion {u s : State} (h : StaticAgree u s)
    {p0 p : Nat × Nat} (hr : inZeroRegion u p0 p) : inZeroRegion s p0 p := by
  induction hr with
  | refl => exact Relation.ReflTransGen.refl
  | tail hab hbc ih =>
    refine Relation.ReflTransGen.tail ih ?_
    obtain ⟨hz1, hz2, hm⟩ := hbc
    exact ⟨(h.zeroCell_iff _).mp hz1, (h.zeroCell_iff _).mp hz2, hm⟩

theorem StaticAgree.border {u s : State} (h : StaticAgree u s)
    {p0 p : Nat × Nat} (hb : inBorder u p0 p) : inBorder s p0 p := by
  obtain ⟨hg, q, hq, hm⟩ := hb
  rw [h.grid_eq] at hg
  exact ⟨hg, q, h.zeroRegion hq, hm⟩

theorem StaticAgree.mooreMineCount_eq {u s : State} (h : StaticAgree u s)
    (p : Nat × Nat) : mooreMineCount u p = mooreMineCount s p := by
  unfold mooreMineCount
  rw [h.grid_eq]
  congr 1
  apply Finset.filter_congr
  intro q _
  rw [(h.2.2 q.1 q.2).1]

theorem StaticAgree.adjCorrect {u s : State} (h : StaticAgree u s)
    (ha : AdjCorrect s) : AdjCorrect u := by
  intro p hp hm
  rw [h.grid_eq] at hp
  rw [(h.2.2 p.1 p.2).1] at hm
  rw [(h.2.2 p.1 p.2).2, h.mooreMineCount_eq]
  exact ha p hp hm

/-- A cell with a zero true mine count has no mine among its on-board Moore
neighbours. -/
theorem no_mine_neighbor {s : State} {p : Nat × Nat}
    (h : mooreMineCount s p = 0) {q : Nat × Nat} (hq : q ∈ grid s)
    (hmoore : mooreAdj p q) : (s.board q.1 q.2).isMine = false := by
  by_contra hmine
  rw [Bool.not_eq_false] at hmine
  have hmem : q ∈ (grid s).filter
      (fun r => mooreAdj p r ∧ (s.board r.1 r.2).isMine) := by
    rw [Finset.mem_filter]
    exact ⟨hq, hmoore, hmine⟩
  have : 0 < mooreMineCount s p := Finset.card_pos.mpr ⟨q, hmem⟩
  omega

/-- Moving by a direction offset from a valid cell to another valid cell is
a Moore-adjacency step. -/
theorem direction_to_moore {s : State} {row col : Int} {d : Int × Int}
    (hd : d ∈ DIRECTIONS) (hv0 : isValidPosition s row col)
    (hvd : isValidPosition s (row + d.1) (col + d.2)) :
    mooreAdj (row.toNat, col.toNat) ((row + d.1).toNat, (col + d.2).toNat) := by
  obtain ⟨a1, a2, a3, a4⟩ := hv0
  obtain ⟨b1, b2, b3, b4⟩ := hvd
  obtain ⟨hne, h1, h2⟩ := mem_DIRECTIONS.mp hd
  have hne2 : ¬(d.1 = 0 ∧ d.2 = 0) := by
    rintro ⟨x, y⟩
    exact hne (Prod.ext x y)
  refine ⟨?_, by dsimp only; omega, by dsimp only; omega⟩
  intro h0
  have e1 : row.toNat = (row + d.1).toNat := congrArg Prod.fst h0
  have e2 : col.toNat = (col + d.2).toNat := congrArg Prod.snd h0
  exact hne2 ⟨by omega, by omega⟩

/-- A reveal starting on a non-mine cell of a board whose adjacency counts
are correct can never lose: the flood fill only ever recurses into
neighbours of true-zero cells, which cannot be mines. -/
theorem revealF_no_lose (now : Nat) :
    ∀ fuel s row col t, revealCellF now fuel s row col = some t →
      AdjCorrect s →
      (isValidPosition s row col → (cellAt s row col).isMine = false) →
      s.gameState ≠ .lost → t.gameState ≠ .lost := by
  intro fuel
  induction fuel with
  | zero =>
    intro s row col t h
    rw [revealCellF] at h
    exact absurd h (by simp)
  | succ fuel ih =>
    intro s row col t h hadjc hnm hnl
    rw [revealCellF] at h
    by_cases hguard : s.gameState ≠ .playing ∨ ¬isValidPosition s row col ∨
        (cellAt s row col).isRevealed
    · rw [if_pos hguard] at h
      injection h with h
      rw [← h]
      exact hnl
    · rw [if_neg hguard] at h
      push_neg at hguard
      obtain ⟨hplay, hvalid, _⟩ := hguard
      by_cases hmine : (cellAt s row col).isMine
      · exact absurd (hnm hvalid) (by rw [hmine]; exact fun h2 => Bool.false_ne_true h2.symm)
      · rw [if_neg hmine] at h
        cases hfill : (if (cellAt s row col).adjacentMines = 0 then
            revealList (revealCellF now fuel)
              (decRemaining (markRevealed s row col)) row col DIRECTIONS
          else some (decRemaining (markRevealed s row col))) with
        | none => rw [hfill] at h; exact absurd h (by simp)
        | some s3 =>
          rw [hfill] at h
          injection h with h
          have hs3 : s3.gameState ≠ .lost := by
            by_cases hadj : (cellAt s row col).adjacentMines = 0
            · rw [if_pos hadj] at hfill
              -- the target is a true zero cell: no neighbour is a mine
              have hP0 : (row.toNat, col.toNat) ∈ grid s := by
                rw [mem_grid]
                exact toNat_lt_of_valid hvalid
              have hzero : mooreMineCount s (row.toNat, col.toNat) = 0 := by
                have := hadjc (row.toNat, col.toNat) hP0
                  (Bool.not_eq_true _ ▸ hmine)
                unfold cellAt at hadj
                rw [← this]
                exact hadj
              have hfold : ∀ (ds : List (Int × Int)) (u : State),
                  (∀ d ∈ ds, d ∈ DIRECTIONS) →
                  Progress now s u → u.gameState ≠ .lost →
                  revealList (revealCellF now fuel) u row col ds = some s3 →
                  s3.gameState ≠ .lost := by
                intro ds
                induction ds with
                | nil =>
                  intro u _ _ hul hrun
                  rw [revealList] at hrun
                  injection hrun with hrun
                  rw [← hrun]
                  exact hul
                | cons d ds ihds =>
                  intro u hds hPu hul hrun
                  rw [revealList] at hrun
                  cases hstep : revealCellF now fuel u (row + d.1) (col + d.2) with
                  | none => rw [hstep] at hrun; exact absurd hrun (by simp)
                  | some u2 =>
                    rw [hstep] at hrun
                    have hsa : StaticAgree u s := hPu.staticAgree
                    have hu2l : u2.gameState ≠ .lost := by
                      refine ih u (row + d.1) (col + d.2) u2 hstep
                        (hsa.adjCorrect hadjc) ?_ hul
                      intro hvu
                      -- the target is a Moore neighbour of the zero cell
                      have hvs : isValidPosition s (row + d.1) (col + d.2) := by
                        obtain ⟨c1, c2, c3, c4⟩ := hvu
                        rw [hsa.1] at c2
                        rw [hsa.2.1] at c4
                        exact ⟨c1, c2, c3, c4⟩
                      have hmoore := direction_to_moore (hds d (List.mem_cons_self d ds))
                        hvalid hvs
                      have hng : ((row + d.1).toNat, (col + d.2).toNat) ∈ grid s := by
                        rw [mem_grid]
                        exact toNat_lt_of_valid hvs
                      have := no_mine_neighbor hzero hng hmoore
                      show (u.board (row + d.1).toNat (col + d.2).toNat).isMine = false
                      rw [(hsa.2.2 (row + d.1).toNat (col + d.2).toNat).1]
                      exact this
                    exact ihds u2 (fun e he => hds e (List.mem_cons_of_mem d he))
                      (hPu.trans (revealF_progress now fuel u _ _ u2 hstep)) hu2l hrun
              have hPs2 : Progress now s (decRemaining (markRevealed s row col)) :=
                progress_reveal_nonmine now s row col hplay hvalid
                  (by rename_i hunrev2; exact Bool.not_eq_true _ ▸ hunrev2)
                  (Bool.not_eq_true _ ▸ hmine)
              exact hfold DIRECTIONS _ (fun d hd => hd) hPs2
                (by rw [show (decRemaining (markRevealed s row col)).gameState =
                  s.gameState from rfl, hplay]; exact fun h2 => nomatch h2) hfill
            · rw [if_neg hadj] at hfill
              injection hfill with hfill
              rw [← hfill]
              show s.gameState ≠ .lost
              exact hnl
          rw [← h]
          by_cases hrem : s3.remainingNonMineCells = 0
          · rw [if_pos hrem]
            show GameState.won ≠ .lost
            exact fun h2 => nomatch h2
          · rw [if_neg hrem]
            exact hs3

/-! ### Soundness of the flood fill: nothing beyond region and border -/

/-- Upper bound on the cells a reveal call may newly reveal, as long as the
game stays in play: the target itself, and — when the target is a zero
cell — its zero-region and that region's border. -/
def reachSet (s : State) (row col : Int) (p : Nat × Nat) : Prop :=
  isValidPosition s row col ∧ (cellAt s row col).isMine = false ∧
    (p = (row.toNat, col.toNat) ∨
      ((cellAt s row col).adjacentMines = 0 ∧
        (inZeroRegion s (row.toNat, col.toNat) p ∨
          inBorder s (row.toNat, col.toNat) p)))

/-- Stepping to a direction neighbour of a zero target stays inside the
original target's reach set. -/
theorem reachSet_step (s u : State) (row col : Int) (d : Int × Int)
    (hd : d ∈ DIRECTIONS) (hsa : StaticAgree u s)
    (hvalid : isValidPosition s row col)
    (hmine : (cellAt s row col).isMine = false)
    (hadj : (cellAt s row col).adjacentMines = 0) :
    ∀ p, reachSet u (row + d.1) (col + d.2) p → reachSet s row col p := by
  intro p hp
  obtain ⟨hvu, hmu, hcase⟩ := hp
  have hvs : isValidPosition s (row + d.1) (col + d.2) := by
    obtain ⟨c1, c2, c3, c4⟩ := hvu
    rw [hsa.1] at c2
    rw [hsa.2.1] at c4
    exact ⟨c1, c2, c3, c4⟩
  have hms : (cellAt s (row + d.1) (col + d.2)).isMine = false := by
    show (s.board (row + d.1).toNat (col + d.2).toNat).isMine = false
    rw [← (hsa.2.2 (row + d.1).toNat (col + d.2).toNat).1]
    exact hmu
  have hmoore := direction_to_moore hd hvalid hvs
  have hP0 : (row.toNat, col.toNat) ∈ grid s := by
    rw [mem_grid]
    exact toNat_lt_of_valid hvalid
  have hNg : ((row + d.1).toNat, (col + d.2).toNat) ∈ grid s := by
    rw [mem_grid]
    exact toNat_lt_of_valid hvs
  have hz0 : zeroCell s (row.toNat, col.toNat) := ⟨hP0, hmine, hadj⟩
  refine ⟨hvalid, hmine, Or.inr ⟨hadj, ?_⟩⟩
  rcases hcase with hpn | ⟨hadjn, hreg⟩
  · -- the neighbour itself: it borders the region containing the target
    subst hpn
    exact Or.inr ⟨hNg, (row.toNat, col.toNat), Relation.ReflTransGen.refl, hmoore⟩
  · -- the neighbour is itself a zero cell: its region is the target's region
    have hzn : zeroCell s ((row + d.1).toNat, (col + d.2).toNat) := by
      refine ⟨hNg, hms, ?_⟩
      show (s.board (row + d.1).toNat (col + d.2).toNat).adjacentMines = 0
      rw [← (hsa.2.2 (row + d.1).toNat (col + d.2).toNat).2]
      exact hadjn
    have hstep0 : zeroStep s (row.toNat, col.toNat)
        ((row + d.1).toNat, (col + d.2).toNat) := ⟨hz0, hzn, hmoore⟩
    rcases hreg with hr | hb
    · exact Or.inl (Relation.ReflTransGen.head hstep0 (hsa.zeroRegion hr))
    · obtain ⟨hg, q, hq, hm⟩ := hsa.border hb
      exact Or.inr ⟨hg, q, Relation.ReflTransGen.head hstep0 hq, hm⟩

/-- Soundness: while the game stays playing, a reveal call only reveals
cells of its reach set. -/
theorem revealF_sound (now : Nat) :
    ∀ fuel s row col t, revealCellF now fuel s row col = some t →
      t.gameState = .playing →
      ∀ p, (t.board p.1 p.2).isRevealed = true →
        (s.board p.1 p.2).isRevealed = true ∨ reachSet s row col p := by
  intro fuel
  induction fuel with
  | zero =>
    intro s row col t h
    rw [revealCellF] at h
    exact absurd h (by simp)
  | succ fuel ih =>
    intro s row col t h hplay3
    rw [revealCellF] at h
    by_cases hguard : s.gameState ≠ .playing ∨ ¬isValidPosition s row col ∨
        (cellAt s row col).isRevealed
    · rw [if_pos hguard] at h
      injection h with h
      subst h
      exact fun p hp => Or.inl hp
    · rw [if_neg hguard] at h
      push_neg at hguard
      obtain ⟨hplay, hvalid, hunrev⟩ := hguard
      by_cases hmine : (cellAt s row col).isMine
      · rw [if_pos hmine] at h
        injection h with h
        rw [← h] at hplay3
        exact nomatch hplay3
      · rw [if_neg hmine] at h
        have hmine2 : (cellAt s row col).isMine = false :=
          Bool.not_eq_true _ ▸ hmine
        cases hfill : (if (cellAt s row col).adjacentMines = 0 then
            revealList (revealCellF now fuel)
              (decRemaining (markRevealed s row col)) row col DIRECTIONS
          else some (decRemaining (markRevealed s row col))) with
        | none => rw [hfill] at h; exact absurd h (by simp)
        | some s3 =>
          rw [hfill] at h
          have h2 : some (if s3.remainingNonMineCells = 0 then winUpdate s3 now
              else s3) = some t := h
          have ht3 : t = s3 := by
            by_cases hrem : s3.remainingNonMineCells = 0
            · rw [if_pos hrem] at h2
              injection h2 with h2
              rw [← h2] at hplay3
              exact nomatch hplay3
            · rw [if_neg hrem] at h2
              injection h2 with h2
              exact h2.symm
          subst ht3
          -- base fact: after the mark+decrement, soundness holds
          have hbase : ∀ p,
              ((decRemaining (markRevealed s row col)).board p.1 p.2).isRevealed = true →
              (s.board p.1 p.2).isRevealed = true ∨ reachSet s row col p := by
            intro p hp
            by_cases hpP : p.1 = row.toNat ∧ p.2 = col.toNat
            · refine Or.inr ⟨hvalid, hmine2, Or.inl ?_⟩
              exact Prod.ext hpP.1 hpP.2
            · left
              have hb : (decRemaining (markRevealed s row col)).board p.1 p.2 =
                  s.board p.1 p.2 := markRevealed_board_other s row col hpP
              rw [← hb]
              exact hp
          by_cases hadj : (cellAt s row col).adjacentMines = 0
          · rw [if_pos hadj] at hfill
            have hfold : ∀ (ds : List (Int × Int)) (u : State),
                (∀ d ∈ ds, d ∈ DIRECTIONS) →
                Progress now s u →
                (∀ p, (u.board p.1 p.2).isRevealed = true →
                  (s.board p.1 p.2).isRevealed = true ∨ reachSet s row col p) →
                revealList (revealCellF now fuel) u row col ds = some t →
                ∀ p, (t.board p.1 p.2).isRevealed = true →
                  (s.board p.1 p.2).isRevealed = true ∨ reachSet s row col p := by
              intro ds
              induction ds with
              | nil =>
                intro u _ _ hsound hrun
                rw [revealList] at hrun
                injection hrun with hrun
                rw [← hrun]
                exact hsound
              | cons d ds ihds =>
                intro u hds hPu hsound hrun
                rw [revealList] at hrun
                cases hstep : revealCellF now fuel u (row + d.1) (col + d.2) with
                | none => rw [hstep] at hrun; exact absurd hrun (by simp)
                | some u2 =>
                  rw [hstep] at hrun
                  have hu2play : u2.gameState = .playing :=
                    ((revealList_progress now (revealCellF now fuel)
                      (fun a b c e h2 => revealF_progress now fuel a b c e h2)
                      ds u2 row col t hrun).playing_facts hplay3).1
                  have hsound2 : ∀ p, (u2.board p.1 p.2).isRevealed = true →
                      (s.board p.1 p.2).isRevealed = true ∨ reachSet s row col p := by
                    intro p hp
                    rcases ih u (row + d.1) (col + d.2) u2 hstep hu2play p hp with
                      hp2 | hp2
                    · exact hsound p hp2
                    · exact Or.inr (reachSet_step s u row col d
                        (hds d (List.mem_cons_self d ds)) hPu.staticAgree
                        hvalid hmine2 hadj p hp2)
                  exact ihds u2 (fun e he => hds e (List.mem_cons_of_mem d he))
                    (hPu.trans (revealF_progress now fuel u _ _ u2 hstep))
                    hsound2 hrun
            exact hfold DIRECTIONS _ (fun d hd => hd)
              (progress_reveal_nonmine now s row col hplay hvalid
                (Bool.not_eq_true _ ▸ hunrev) hmine2) hbase hfill
          · rw [if_neg hadj] at hfill
            injection hfill with hfill
            rw [← hfill]
            exact hbase

/-- Completeness: in a zero-closed state in which a zero cell is revealed,
its whole zero-region is revealed. -/
theorem region_revealed (t : State) (hZ : ZeroClosed t) (P0 : Nat × Nat)
    (h0 : (t.board P0.1 P0.2).isRevealed = true) :
    ∀ p, inZeroRegion t P0 p → (t.board p.1 p.2).isRevealed = true := by
  intro p hreg
  induction hreg with
  | refl => exact h0
  | tail hab hbc ih =>
    obtain ⟨hz1, hz2, hm⟩ := hbc
    obtain ⟨hg1, hm1, ha1⟩ := hz1
    obtain ⟨hg2, _, _⟩ := hz2
    rcases hZ _ hg1 ih hm1 ha1 _ hg2 hm with hrev | hfalse
    · exact hrev
    · exact absurd hfalse (fun h => h)

/-- Completeness for the border: in a zero-closed state in which a zero
cell is revealed, the border of its region is revealed too. -/
theorem border_revealed (t : State) (hZ : ZeroClosed t) (P0 : Nat × Nat)
    (h0 : (t.board P0.1 P0.2).isRevealed = true) (hz0 : zeroCell t P0) :
    ∀ p, inBorder t P0 p → (t.board p.1 p.2).isRevealed = true := by
  intro p hb
  obtain ⟨hg, q, hq, hm⟩ := hb
  have hqrev := region_revealed t hZ P0 h0 q hq
  have hzq : zeroCell t q := by
    rcases Relation.ReflTransGen.cases_tail hq with heq | ⟨c, _, hstep⟩
    · rw [heq]
      exact hz0
    · exact hstep.2.1
  obtain ⟨hgq, hmq, haq⟩ := hzq
  rcases hZ q hgq hqrev hmq haq p hg hm with hrev | hfalse
  · exact hrev
  · exact absurd hfalse (fun h => h)

/-! ### The reachable-state invariant -/

/-- The invariant that holds in every reachable engine state. -/
structure Invariant (s : State) : Prop where
  inv1 : s.gameState ≠ .lost → s.remainingNonMineCells = (unrevNonMine s : Int)
  inv2 : s.gameState = .won → s.remainingNonMineCells = 0
  inv7 : s.remainingNonMineCells = 0 → s.gameState = .won ∨
    s.gameState = .lost ∨ s.mineCount = s.rows * s.cols
  minesHidden : s.gameState = .playing → MinesHidden s
  ended : s.gameState ≠ .playing → allRevealed s
  mines : boardMines s = s.mineCount
  adjc : AdjCorrect s
  zclosed : ZeroClosed s

theorem StaticAgree.boardMines_eq {u s : State} (h : StaticAgree u s) :
    boardMines u = boardMines s := by
  unfold boardMines
  rw [h.grid_eq]
  congr 1
  apply Finset.filter_congr
  intro q _
  rw [(h.2.2 q.1 q.2).1]

theorem grid_card (s : State) : (grid s).card = s.rows * s.cols := by
  unfold grid
  rw [Finset.card_product, Finset.card_range, Finset.card_range]

/-- A freshly initialized game satisfies the invariant. -/
theorem initializeNewGame_invariant (rows cols mineCount : Nat)
    (rng : Nat → Nat × Nat) (hrng : ∀ n, (rng n).1 < rows ∧ (rng n).2 < cols)
    (fuel now : Nat) (s : State)
    (hrun : initializeNewGame rows cols mineCount rng fuel now = some s) :
    Invariant s := by
  classical
  obtain ⟨hr, hc, hm, hg, hrem, _, _, _, hmines, hunrev, hadj, _⟩ :=
    initializeNewGame_spec rows cols mineCount rng hrng fuel now s hrun
  have hsplit : unrevNonMine s + boardMines s = s.rows * s.cols := by
    unfold unrevNonMine boardMines
    rw [← grid_card s]
    have hcongr : (grid s).filter
        (fun p => ¬(s.board p.1 p.2).isMine ∧ ¬(s.board p.1 p.2).isRevealed) =
        (grid s).filter (fun p => ¬((s.board p.1 p.2).isMine = true)) := by
      apply Finset.filter_congr
      intro q _
      rw [hunrev q.1 q.2]
      simp
    rw [hcongr, Nat.add_comm]
    exact Finset.filter_card_add_filter_neg_card_eq_card _
  rw [hmines, hr, hc] at hsplit
  have key : (rows : Int) * (cols : Int) =
      (unrevNonMine s : Int) + (mineCount : Int) := by
    have h2 := congrArg (fun n : Nat => (n : Int)) hsplit
    push_cast at h2
    exact h2.symm
  refine
    { inv1 := ?_
      inv2 := ?_
      inv7 := ?_
      minesHidden := ?_
      ended := ?_
      mines := by rw [hm]; exact hmines
      adjc := ?_
      zclosed := ?_ }
  · intro _
    rw [hrem, key]
    omega
  · intro hw
    rw [hg] at hw
    exact nomatch hw
  · intro h0
    refine Or.inr (Or.inr ?_)
    rw [hrem, key] at h0
    have hu : unrevNonMine s = 0 := by omega
    rw [hm, hr, hc]
    rw [hu] at hsplit
    simpa using hsplit
  · intro _ i j _ _ _
    exact hunrev i j
  · intro hnp
    rw [hg] at hnp
    exact absurd rfl hnp
  · intro p hp hm2
    exact hadj p hp hm2
  · intro p hp hrev
    rw [hunrev p.1 p.2] at hrev
    exact absurd hrev Bool.false_ne_true

/-- The operation `revealCell` preserves the invariant. -/
theorem revealCell_invariant (s : State) (row col : Int) (now : Nat)
    (hI : Invariant s) : Invariant (revealCell s row col now) := by
  have hP := revealCell_progress s row col now
  have hsa := hP.staticAgree
  have heqF := revealCell_eq_fuel s row col now
    (show unrevealedCount s < unrevealedCount s + 1 by omega)
  refine
    { inv1 := hP.inv1 hI.inv1
      inv2 := hP.inv2 hI.inv2
      inv7 := ?_
      minesHidden := hP.inv3 hI.minesHidden
      ended := ?_
      mines := by rw [hsa.boardMines_eq, hP.mineCount_eq]; exact hI.mines
      adjc := hsa.adjCorrect hI.adjc
      zclosed := revealF_zeroClosed now (unrevealedCount s + 1) s row col _
        heqF _ hI.zclosed }
  · intro h0
    cases htg : (revealCell s row col now).gameState with
    | won => exact Or.inl rfl
    | lost => exact Or.inr (Or.inl rfl)
    | playing =>
      rcases revealF_playing_remaining now (unrevealedCount s + 1) s row col _
          heqF htg with hts | hrem
      · rw [hts] at h0 htg ⊢
        rcases hI.inv7 h0 with hw | hl | hb
        · rw [htg] at hw
          exact nomatch hw
        · rw [htg] at hl
          exact nomatch hl
        · exact Or.inr (Or.inr hb)
      · exact absurd h0 hrem
  · intro hnp
    by_cases hsp : s.gameState = .playing
    · exact (hP.finish hsp hnp).1
    · rw [revealCell_noop s row col now (Or.inl hsp)] at hnp ⊢
      exact hI.ended hnp

/-- The operation `resetGame` (when it succeeds) re-establishes the invariant. -/
theorem resetGame_invariant (s : State) (rng : Nat → Nat × Nat)
    (hrng : ∀ n, (rng n).1 < s.rows ∧ (rng n).2 < s.cols) (fuel now : Nat)
    (t : State) (h : resetGame s rng fuel now = .ok (some t)) : Invariant t := by
  unfold resetGame at h
  by_cases hp : s.gameState = .playing
  · rw [if_pos hp] at h
    exact absurd h (by simp)
  · rw [if_neg hp] at h
    simp only [Except.ok.injEq] at h
    exact initializeNewGame_invariant s.rows s.cols s.mineCount rng hrng
      fuel now t h

/-- Engine states reachable from a valid construction by `revealCell` and
`resetGame` calls.  The hypotheses on the random streams express that
`Math.floor(Math.random() * n)` lands in `[0, n)`. -/
inductive Reachable : State → Prop
  | construct (rows cols mineCount : Int) (rng : Nat → Nat × Nat)
      (fuel now : Nat) (s : State)
      (hrng : ∀ n, ((rng n).1 : Int) < rows ∧ ((rng n).2 : Int) < cols)
      (h : new rows cols mineCount rng fuel now = .ok (some s)) : Reachable s
  | reveal (s : State) (row col : Int) (now : Nat) : Reachable s →
      Reachable (revealCell s row col now)
  | reset (s : State) (rng : Nat → Nat × Nat) (fuel now : Nat) (t : State)
      (hrng : ∀ n, (rng n).1 < s.rows ∧ (rng n).2 < s.cols)
      (hs : Reachable s)
      (h : resetGame s rng fuel now = .ok (some t)) : Reachable t

/-- A successful construction is a successful `initializeNewGame` on the
truncated arguments. -/
theorem new_ok (rows cols mineCount : Int) (rng : Nat → Nat × Nat)
    (fuel now : Nat) (s : State)
    (h : new rows cols mineCount rng fuel now = .ok (some s)) :
    ¬(rows ≤ 0 ∨ cols ≤ 0) ∧ ¬mineCount < 0 ∧ ¬mineCount > rows * cols ∧
    initializeNewGame rows.toNat cols.toNat mineCount.toNat rng fuel now =
      some s := by
  unfold new at h
  by_cases h1 : rows ≤ 0 ∨ cols ≤ 0
  · rw [if_pos h1] at h
    exact absurd h (by simp)
  · rw [if_neg h1] at h
    by_cases h2 : mineCount < 0
    · rw [if_pos h2] at h
      exact absurd h (by simp)
    · rw [if_neg h2] at h
      by_cases h3 : mineCount > rows * cols
      · rw [if_pos h3] at h
        exact absurd h (by simp)
      · rw [if_neg h3] at h
        simp only [Except.ok.injEq] at h
        exact ⟨h1, h2, h3, h⟩

/-- Every reachable state satisfies the invariant. -/
theorem reachable_invariant (s : State) (h : Reachable s) : Invariant s := by
  induction h with
  | construct rows cols mineCount rng fuel now s hrng hnew =>
    obtain ⟨h1, _, _, hinit⟩ := new_ok rows cols mineCount rng fuel now s hnew
    push_neg at h1
    refine initializeNewGame_invariant rows.toNat cols.toNat mineCount.toNat
      rng ?_ fuel now s hinit
    intro n
    obtain ⟨ha, hb⟩ := hrng n
    obtain ⟨hrp, hcp⟩ := h1
    omega
  | reveal s row col now _ ih => exact revealCell_invariant s row col now ih
  | reset s rng fuel now t hrng _ hrst ih =>
    exact resetGame_invariant s rng hrng fuel now t hrst

theorem StaticAgree.valid_iff {u s : State} (h : StaticAgree u s)
    (row col : Int) : isValidPosition u row col ↔ isValidPosition s row col := by
  unfold isValidPosition
  rw [h.1, h.2.1]

/-- Clicking a valid unrevealed mine: `revealCell` is exactly the losing
update. -/
theorem revealCell_mine (s : State) (row col : Int) (now : Nat)
    (hplay : s.gameState = .playing) (hvalid : isValidPosition s row col)
    (hunrev : (cellAt s row col).isRevealed = false)
    (hmine : (cellAt s row col).isMine = true) :
    revealCell s row col now =
      loseUpdate (markRevealed s row col) row col now := by
  unfold revealCell
  rw [revealCellF, if_neg (by
    push_neg
    refine ⟨hplay, hvalid, ?_⟩
    rw [hunrev]
    exact Bool.false_ne_true), if_pos hmine]
  rfl

theorem StaticAgree.symm {u s : State} (h : StaticAgree u s) :
    StaticAgree s u :=
  ⟨h.1.symm, h.2.1.symm, fun i j => ⟨(h.2.2 i j).1.symm, (h.2.2 i j).2.symm⟩⟩

/-! ### The claims -/

/-- C1 (amended): in every reachable engine state, `remainingNonMineCells`
equals the number of unrevealed non-mine cells unless the game is Lost
(where the whole board is revealed but the counter keeps its pre-loss
value); in state Won the counter is 0; and a zero counter implies Won,
Lost, or the boundary construction `mineCount = rows * cols` (where the
counter is 0 while still Playing). -/
theorem C1_remaining_invariant (s : State) (h : Reachable s) :
    (s.gameState ≠ .lost →
      s.remainingNonMineCells = (unrevNonMine s : Int)) ∧
    (s.gameState = .won → s.remainingNonMineCells = 0) ∧
    (s.gameState = .lost → allRevealed s) ∧
    (s.remainingNonMineCells = 0 → s.gameState = .won ∨
      s.gameState = .lost ∨ s.mineCount = s.rows * s.cols) := by
  have hI := reachable_invariant s h
  refine ⟨hI.inv1, hI.inv2, ?_, hI.inv7⟩
  intro hl
  apply hI.ended
  rw [hl]
  exact fun h2 => nomatch h2

/-- C2: every successful construction and every successful reset yields a
board with exactly `mineCount` mines, correct Moore-neighbourhood adjacency
counts on non-mine cells, and zero counts on mine cells. -/
theorem C2_mines_and_adjacency :
    (∀ (rows cols mineCount : Int) (rng : Nat → Nat × Nat) (fuel now : Nat)
      (s : State),
      new rows cols mineCount rng fuel now = .ok (some s) →
      (∀ n, ((rng n).1 : Int) < rows ∧ ((rng n).2 : Int) < cols) →
      (s.rows : Int) = rows ∧ (s.cols : Int) = cols ∧
      (boardMines s : Int) = mineCount ∧
      (∀ p ∈ grid s, (s.board p.1 p.2).isMine = false →
        (s.board p.1 p.2).adjacentMines = mooreMineCount s p) ∧
      (∀ p ∈ grid s, (s.board p.1 p.2).isMine = true →
        (s.board p.1 p.2).adjacentMines = 0)) ∧
    (∀ (s0 : State) (rng : Nat → Nat × Nat) (fuel now : Nat) (s : State),
      resetGame s0 rng fuel now = .ok (some s) →
      (∀ n, (rng n).1 < s0.rows ∧ (rng n).2 < s0.cols) →
      s.rows = s0.rows ∧ s.cols = s0.cols ∧ boardMines s = s0.mineCount ∧
      (∀ p ∈ grid s, (s.board p.1 p.2).isMine = false →
        (s.board p.1 p.2).adjacentMines = mooreMineCount s p) ∧
      (∀ p ∈ grid s, (s.board p.1 p.2).isMine = true →
        (s.board p.1 p.2).adjacentMines = 0)) := by
  constructor
  · intro rows cols mineCount rng fuel now s hnew hrng
    obtain ⟨h1, h2, _, hinit⟩ := new_ok rows cols mineCount rng fuel now s hnew
    push_neg at h1
    obtain ⟨hrp, hcp⟩ := h1
    have hrngN : ∀ n, (rng n).1 < rows.toNat ∧ (rng n).2 < cols.toNat := by
      intro n
      obtain ⟨ha, hb⟩ := hrng n
      omega
    obtain ⟨hr, hc, hm, _, _, _, _, _, hmines, _, hadj, hadjm⟩ :=
      initializeNewGame_spec rows.toNat cols.toNat mineCount.toNat rng hrngN
        fuel now s hinit
    refine ⟨by rw [hr]; omega, by rw [hc]; omega, by rw [hmines]; omega,
      hadj, hadjm⟩
  · intro s0 rng fuel now s hreset hrng
    unfold resetGame at hreset
    by_cases hp : s0.gameState = .playing
    · rw [if_pos hp] at hreset
      exact absurd hreset (by simp)
    · rw [if_neg hp] at hreset
      simp only [Except.ok.injEq] at hreset
      obtain ⟨hr, hc, hm, _, _, _, _, _, hmines, _, hadj, hadjm⟩ :=
        initializeNewGame_spec s0.rows s0.cols s0.mineCount rng hrng fuel now
          s hreset
      exact ⟨hr, hc, by rw [hmines], hadj, hadjm⟩

/-- C6: `revealCell` on a finished game, an out-of-bounds position, or an
already revealed cell is a silent no-op: the entire engine state (board,
game state, counter, hit-mine marker, timestamps) is unchanged, and being a
total function it raises nothing. -/
theorem C6_reveal_noop (s : State) (row col : Int) (now : Nat)
    (h : s.gameState ≠ .playing ∨ ¬isValidPosition s row col ∨
      (cellAt s row col).isRevealed = true) :
    revealCell s row col now = s :=
  revealCell_noop s row col now h

/-- C7: `resetGame` fails (with the game-in-progress error, producing no new
state) exactly when the game is Playing; on a Won or Lost state it returns a
fresh Playing state with the same dimensions and mine count, cleared end
time and hit-mine marker, no revealed cell, and a freshly placed and
recomputed board. -/
theorem C7_resetGame :
    (∀ (s : State) (rng : Nat → Nat × Nat) (fuel now : Nat),
      (∃ e, resetGame s rng fuel now = .error e) ↔ s.gameState = .playing) ∧
    (∀ (s : State) (rng : Nat → Nat × Nat) (fuel now : Nat) (t : State),
      resetGame s rng fuel now = .ok (some t) →
      (∀ n, (rng n).1 < s.rows ∧ (rng n).2 < s.cols) →
      t.gameState = .playing ∧ t.endTime = none ∧
      t.hitMineCoordinates = none ∧ t.startTime = now ∧
      t.rows = s.rows ∧ t.cols = s.cols ∧ t.mineCount = s.mineCount ∧
      (∀ i j, (t.board i j).isRevealed = false) ∧
      boardMines t = s.mineCount ∧
      (∀ p ∈ grid t, (t.board p.1 p.2).isMine = false →
        (t.board p.1 p.2).adjacentMines = mooreMineCount t p)) := by
  constructor
  · intro s rng fuel now
    constructor
    · rintro ⟨e, he⟩
      by_contra hp
      unfold resetGame at he
      rw [if_neg hp] at he
      exact absurd he (by simp)
    · intro hp
      refine ⟨"Cannot reset the game while it is still in progress.", ?_⟩
      unfold resetGame
      rw [if_pos hp]
  · intro s rng fuel now t hreset hrng
    unfold resetGame at hreset
    by_cases hp : s.gameState = .playing
    · rw [if_pos hp] at hreset
      exact absurd hreset (by simp)
    · rw [if_neg hp] at hreset
      simp only [Except.ok.injEq] at hreset
      obtain ⟨hr, hc, hm, hg, _, hhit, hst, het, hmines, hunrev, hadj, _⟩ :=
        initializeNewGame_spec s.rows s.cols s.mineCount rng hrng fuel now
          t hreset
      exact ⟨hg, het, hhit, hst, hr, hc, hm, hunrev, by rw [hmines], hadj⟩

/-- C8: asset-key resolution is the stated pure function of the board
state: no key out of bounds, `cell_hidden` for unrevealed cells,
`cell_revealed_{n}` for revealed non-mine cells, `mine_hit` exactly for the
hit mine when Lost, `mine_normal` for other revealed mines when Lost or
Won; and the status key is mapped one-to-one from the game state. -/
theorem C8_image_keys (s : State) (row col : Int) :
    (¬isValidPosition s row col → getCellImage s row col = none) ∧
    (isValidPosition s row col → (cellAt s row col).isRevealed = false →
      getCellImage s row col = some .cellHidden) ∧
    (isValidPosition s row col → (cellAt s row col).isRevealed = true →
      (cellAt s row col).isMine = false →
      getCellImage s row col =
        some (.cellRevealed (cellAt s row col).adjacentMines)) ∧
    (isValidPosition s row col → (cellAt s row col).isRevealed = true →
      (cellAt s row col).isMine = true → s.gameState = .lost →
      s.hitMineCoordinates = some (row, col) →
      getCellImage s row col = some .mineHit) ∧
    (isValidPosition s row col → (cellAt s row col).isRevealed = true →
      (cellAt s row col).isMine = true → s.gameState = .lost →
      s.hitMineCoordinates ≠ some (row, col) →
      getCellImage s row col = some .mineNormal) ∧
    (isValidPosition s row col → (cellAt s row col).isRevealed = true →
      (cellAt s row col).isMine = true → s.gameState = .won →
      getCellImage s row col = some .mineNormal) ∧
    (getGameStatusImage s = some .statusPlaying ↔ s.gameState = .playing) ∧
    (getGameStatusImage s = some .statusWon ↔ s.gameState = .won) ∧
    (getGameStatusImage s = some .statusLost ↔ s.gameState = .lost) := by
  unfold getCellImage
  refine ⟨?_, ?_, ?_, ?_, ?_, ?_, ?_, ?_, ?_⟩
  · intro h
    rw [if_pos h]
  · intro hv hr
    rw [if_neg (not_not.mpr hv), if_pos (by rw [hr]; exact Bool.false_ne_true)]
  · intro hv hr hm
    rw [if_neg (not_not.mpr hv), if_neg (by rw [hr]; simp),
      if_neg (by rw [hm]; exact Bool.false_ne_true)]
  · intro hv hr hm hl hh
    rw [if_neg (not_not.mpr hv), if_neg (by rw [hr]; simp), if_pos hm,
      if_pos hl, if_pos hh]
  · intro hv hr hm hl hh
    rw [if_neg (not_not.mpr hv), if_neg (by rw [hr]; simp), if_pos hm,
      if_pos hl, if_neg hh]
  · intro hv hr hm hw
    rw [if_neg (not_not.mpr hv), if_neg (by rw [hr]; simp), if_pos hm,
      if_neg (by rw [hw]; exact fun h2 => nomatch h2), if_pos hw]
  · unfold getGameStatusImage
    cases s.gameState <;> simp
  · unfold getGameStatusImage
    cases s.gameState <;> simp
  · unfold getGameStatusImage
    cases s.gameState <;> simp

/-- C9: the reveal recursion terminates: any fuel exceeding the number of
unrevealed cells suffices (each recursive call reveals a fresh cell, so the
unrevealed count strictly decreases), the result is independent of such
fuel, and a call never increases the unrevealed count. -/
theorem C9_termination (s : State) (row col : Int) (now fuel : Nat)
    (hfuel : unrevealedCount s < fuel) :
    (revealCellF now fuel s row col).isSome ∧
    revealCellF now fuel s row col = some (revealCell s row col now) ∧
    unrevealedCount (revealCell s row col now) ≤ unrevealedCount s := by
  refine ⟨revealF_isSome now fuel s row col hfuel, ?_, ?_⟩
  · exact revealCell_eq_fuel s row col now hfuel
  · exact (revealCell_progress s row col now).unrevealedCount_le

/-- C4: revealing an in-bounds unrevealed mine while playing loses the
game: state Lost, hit-mine coordinates recorded, end time set, whole board
revealed, the clicked mine resolves to `mine_hit` and every other mine to
`mine_normal`. -/
theorem C4_reveal_mine (s : State) (row col : Int) (now : Nat)
    (hplay : s.gameState = .playing) (hvalid : isValidPosition s row col)
    (hunrev : (cellAt s row col).isRevealed = false)
    (hmine : (cellAt s row col).isMine = true) :
    (revealCell s row col now).gameState = .lost ∧
    (revealCell s row col now).hitMineCoordinates = some (row, col) ∧
    (revealCell s row col now).endTime = some now ∧
    allRevealed (revealCell s row col now) ∧
    getCellImage (revealCell s row col now) row col = some .mineHit ∧
    (∀ r c : Int, isValidPosition s r c → (cellAt s r c).isMine = true →
      ¬(r = row ∧ c = col) →
      getCellImage (revealCell s row col now) r c = some .mineNormal) := by
  rw [revealCell_mine s row col now hplay hvalid hunrev hmine]
  refine ⟨rfl, rfl, rfl, allRevealed_loseUpdate _ row col now, ?_, ?_⟩
  · have hvL : isValidPosition
        (loseUpdate (markRevealed s row col) row col now) row col := hvalid
    have hrevL : (cellAt (loseUpdate (markRevealed s row col) row col now)
        row col).isRevealed = true := by
      show ((loseUpdate (markRevealed s row col) row col now).board
        row.toNat col.toNat).isRevealed = true
      rw [loseUpdate_board, if_pos (by exact toNat_lt_of_valid hvalid)]
    have hmL : (cellAt (loseUpdate (markRevealed s row col) row col now)
        row col).isMine = true := by
      show ((loseUpdate (markRevealed s row col) row col now).board
        row.toNat col.toNat).isMine = true
      rw [loseUpdate_board, if_pos (by exact toNat_lt_of_valid hvalid)]
      show ((markRevealed s row col).board row.toNat col.toNat).isMine = true
      rw [markRevealed_isMine]
      exact hmine
    unfold getCellImage
    rw [if_neg (not_not.mpr hvL), if_neg (by rw [hrevL]; simp), if_pos hmL,
      if_pos (show (loseUpdate (markRevealed s row col) row col now).gameState
        = .lost from rfl),
      if_pos (show (loseUpdate (markRevealed s row col) row col
        now).hitMineCoordinates = some (row, col) from rfl)]
  · intro r c hv hm hne
    have hvL : isValidPosition
        (loseUpdate (markRevealed s row col) row col now) r c := hv
    have hrevL : (cellAt (loseUpdate (markRevealed s row col) row col now)
        r c).isRevealed = true := by
      show ((loseUpdate (markRevealed s row col) row col now).board
        r.toNat c.toNat).isRevealed = true
      rw [loseUpdate_board, if_pos (by exact toNat_lt_of_valid hv)]
    have hmL : (cellAt (loseUpdate (markRevealed s row col) row col now)
        r c).isMine = true := by
      show ((loseUpdate (markRevealed s row col) row col now).board
        r.toNat c.toNat).isMine = true
      rw [loseUpdate_board, if_pos (by exact toNat_lt_of_valid hv)]
      show ((markRevealed s row col).board r.toNat c.toNat).isMine = true
      rw [markRevealed_isMine]
      exact hm
    unfold getCellImage
    rw [if_neg (not_not.mpr hvL), if_neg (by rw [hrevL]; simp), if_pos hmL,
      if_pos (show (loseUpdate (markRevealed s row col) row col now).gameState
        = .lost from rfl),
      if_neg ?hneq]
    case hneq =>
      show ¬(some ((row : Int), (col : Int)) = some (r, c))
      intro heq
      rw [Option.some.injEq] at heq
      exact hne ⟨(congrArg Prod.fst heq).symm, (congrArg Prod.snd heq).symm⟩

/-- C5: a reveal on a non-mine cell of a reachable playing state that
leaves no unrevealed non-mine cell wins the game: state Won, end time set,
whole board revealed, and every mine resolves to `mine_normal`. -/
theorem C5_reveal_last (s : State) (row col : Int) (now : Nat)
    (hreach : Reachable s) (hplay : s.gameState = .playing)
    (hvalid : isValidPosition s row col)
    (hunrev : (cellAt s row col).isRevealed = false)
    (hnm : (cellAt s row col).isMine = false)
    (hlast : unrevNonMine (revealCell s row col now) = 0) :
    (revealCell s row col now).gameState = .won ∧
    (revealCell s row col now).endTime = some now ∧
    allRevealed (revealCell s row col now) ∧
    (∀ r c : Int, isValidPosition s r c → (cellAt s r c).isMine = true →
      getCellImage (revealCell s row col now) r c = some .mineNormal) := by
  have hI := reachable_invariant s hreach
  have hIt := revealCell_invariant s row col now hI
  have hP := revealCell_progress s row col now
  have hsa := hP.staticAgree
  have heqF := revealCell_eq_fuel s row col now
    (show unrevealedCount s < unrevealedCount s + 1 by omega)
  have hnl : (revealCell s row col now).gameState ≠ .lost :=
    revealF_no_lose now _ s row col _ heqF hI.adjc (fun _ => hnm)
      (by rw [hplay]; exact fun h => nomatch h)
  have hwon : (revealCell s row col now).gameState = .won := by
    cases htg : (revealCell s row col now).gameState with
    | lost => exact absurd htg hnl
    | won => rfl
    | playing =>
      rcases revealF_playing_remaining now _ s row col _ heqF htg with
        hts | hrem
      · have htr := revealF_target_revealed now _ s row col _ heqF htg hvalid
        rw [hts] at htr
        rw [hunrev] at htr
        exact absurd htr Bool.false_ne_true
      · have h1 := hIt.inv1 (by rw [htg]; exact fun h => nomatch h)
        rw [hlast] at h1
        push_cast at h1
        exact absurd h1 hrem
  have hfin := hP.finish hplay (by rw [hwon]; exact fun h => nomatch h)
  refine ⟨hwon, hfin.2, hfin.1, ?_⟩
  intro r c hv hm
  have hvL : isValidPosition (revealCell s row col now) r c :=
    (hsa.valid_iff r c).mpr hv
  have hrevL : (cellAt (revealCell s row col now) r c).isRevealed = true := by
    show ((revealCell s row col now).board r.toNat c.toNat).isRevealed = true
    exact hfin.1 (r.toNat, c.toNat) (by rw [mem_grid]; exact toNat_lt_of_valid hvL)
  have hmL : (cellAt (revealCell s row col now) r c).isMine = true := by
    show ((revealCell s row col now).board r.toNat c.toNat).isMine = true
    rw [(hsa.2.2 r.toNat c.toNat).1]
    exact hm
  unfold getCellImage
  rw [if_neg (not_not.mpr hvL), if_neg (by rw [hrevL]; simp), if_pos hmL,
    if_neg (by rw [hwon]; exact fun h => nomatch h), if_pos hwon]

/-- C10: in a reachable playing state no mine is revealed, so cell-image
resolution never yields `mine_hit` while playing (the fallback branch of
`getCellImage` is unreachable). -/
theorem C10_mines_hidden (s : State) (h : Reachable s)
    (hplay : s.gameState = .playing) :
    MinesHidden s ∧
    ∀ row col : Int, getCellImage s row col ≠ some .mineHit := by
  have hI := reachable_invariant s h
  have hmh := hI.minesHidden hplay
  refine ⟨hmh, ?_⟩
  intro row col hcontra
  unfold getCellImage at hcontra
  by_cases hv : isValidPosition s row col
  · rw [if_neg (not_not.mpr hv)] at hcontra
    by_cases hr : (cellAt s row col).isRevealed = true
    · rw [if_neg (by rw [hr]; simp)] at hcontra
      by_cases hm : (cellAt s row col).isMine = true
      · have hlt := toNat_lt_of_valid hv
        have hhid := hmh row.toNat col.toNat hlt.1 hlt.2 hm
        unfold cellAt at hr
        rw [hhid] at hr
        exact absurd hr Bool.false_ne_true
      · rw [if_neg hm] at hcontra
        rw [Option.some.injEq] at hcontra
        exact nomatch hcontra
    · rw [if_pos hr] at hcontra
      rw [Option.some.injEq] at hcontra
      exact nomatch hcontra
  · rw [if_pos hv] at hcontra
    exact absurd hcontra (by simp)

/-- C3 (amended): revealing an in-bounds unrevealed zero-adjacency non-mine
cell of a reachable playing state never loses; if the game stays playing,
the revealed set grows by exactly the connected zero-region of the clicked
cell together with its Moore border; and if the fill completed the win
condition, the game is Won and the entire board is revealed instead. -/
theorem C3_flood_fill (s : State) (row col : Int) (now : Nat)
    (hreach : Reachable s) (hplay : s.gameState = .playing)
    (hvalid : isValidPosition s row col)
    (hunrev : (cellAt s row col).isRevealed = false)
    (hnm : (cellAt s row col).isMine = false)
    (hadj0 : (cellAt s row col).adjacentMines = 0) :
    (revealCell s row col now).gameState ≠ .lost ∧
    ((revealCell s row col now).gameState = .playing →
      ∀ p : Nat × Nat,
        ((revealCell s row col now).board p.1 p.2).isRevealed = true ↔
        ((s.board p.1 p.2).isRevealed = true ∨
          inZeroRegion s (row.toNat, col.toNat) p ∨
          inBorder s (row.toNat, col.toNat) p)) ∧
    ((revealCell s row col now).gameState = .won →
      allRevealed (revealCell s row col now)) := by
  have hI := reachable_invariant s hreach
  have hIt := revealCell_invariant s row col now hI
  have hP := revealCell_progress s row col now
  have hsa := hP.staticAgree
  have heqF := revealCell_eq_fuel s row col now
    (show unrevealedCount s < unrevealedCount s + 1 by omega)
  have hnl : (revealCell s row col now).gameState ≠ .lost :=
    revealF_no_lose now _ s row col _ heqF hI.adjc (fun _ => hnm)
      (by rw [hplay]; exact fun h => nomatch h)
  have hz0 : zeroCell s (row.toNat, col.toNat) := by
    refine ⟨?_, hnm, hadj0⟩
    rw [mem_grid]
    exact toNat_lt_of_valid hvalid
  refine ⟨hnl, ?_, ?_⟩
  · intro hpt p
    constructor
    · intro hrev
      rcases revealF_sound now _ s row col _ heqF hpt p hrev with h1 | h1
      · exact Or.inl h1
      · obtain ⟨_, _, hcase⟩ := h1
        rcases hcase with hp0 | ⟨_, hreg⟩
        · rw [hp0]
          exact Or.inr (Or.inl Relation.ReflTransGen.refl)
        · rcases hreg with hr | hb
          · exact Or.inr (Or.inl hr)
          · exact Or.inr (Or.inr hb)
    · intro hcase
      have htarget := revealF_target_revealed now _ s row col _ heqF hpt hvalid
      have htarget2 : ((revealCell s row col now).board row.toNat
          col.toNat).isRevealed = true := htarget
      have hsym := hsa.symm
      rcases hcase with h1 | h1 | h1
      · exact hP.mono p.1 p.2 h1
      · exact region_revealed _ hIt.zclosed (row.toNat, col.toNat) htarget2 p
          (hsym.zeroRegion h1)
      · refine border_revealed _ hIt.zclosed (row.toNat, col.toNat) htarget2
          ?_ p (hsym.border h1)
        exact (hsa.zeroCell_iff (row.toNat, col.toNat)).mpr hz0
  · intro hw
    exact (hP.finish hplay (by rw [hw]; exact fun h => nomatch h)).1

/-! ### Concrete example games (witnesses and counterexamples) -/

/-- Fallback state used only to extract the `Option` results of the
concrete constructions below (never actually produced). -/
def emptyState : State :=
  { rows := 0, cols := 0, mineCount := 0, board := initializeBoard,
    gameState := .playing, remainingNonMineCells := 0,
    hitMineCoordinates := none, startTime := 0, endTime := none }

/-- Random stream that always picks `(0, 3)`. -/
def rngA : Nat → Nat × Nat := fun _ => (0, 3)

/-- 1×5 board with one mine at `(0, 3)`. -/
def sEx5 : State := (initializeNewGame 1 5 1 rngA 2 0).getD emptyState

theorem sEx5_new : new 1 5 1 rngA 2 0 = .ok (some sEx5) := rfl

theorem sEx5_reachable : Reachable sEx5 :=
  Reachable.construct 1 5 1 rngA 2 0 sEx5
    (fun _ => ⟨(by decide : ((0 : Nat) : Int) < 1),
      (by decide : ((3 : Nat) : Int) < 5)⟩) sEx5_new

/-- Random stream that always picks `(0, 1)`. -/
def rngB : Nat → Nat × Nat := fun _ => (0, 1)

/-- 1×2 board with one mine at `(0, 1)`. -/
def sEx2 : State := (initializeNewGame 1 2 1 rngB 2 0).getD emptyState

theorem sEx2_new : new 1 2 1 rngB 2 0 = .ok (some sEx2) := rfl

theorem sEx2_reachable : Reachable sEx2 :=
  Reachable.construct 1 2 1 rngB 2 0 sEx2
    (fun _ => ⟨(by decide : ((0 : Nat) : Int) < 1),
      (by decide : ((1 : Nat) : Int) < 2)⟩) sEx2_new

/-- Random stream that always picks `(0, 0)`. -/
def rngC : Nat → Nat × Nat := fun _ => (0, 0)

/-- 1×1 board whose single cell is a mine (the boundary construction
`mineCount = rows * cols`). -/
def sEx1 : State := (initializeNewGame 1 1 1 rngC 2 0).getD emptyState

theorem sEx1_new : new 1 1 1 rngC 2 0 = .ok (some sEx1) := rfl

/-- Random stream that always picks `(0, 2)`. -/
def rngD : Nat → Nat × Nat := fun _ => (0, 2)

/-- 1×3 board with one mine at `(0, 2)`. -/
def sEx3 : State := (initializeNewGame 1 3 1 rngD 2 0).getD emptyState

theorem sEx3_new : new 1 3 1 rngD 2 0 = .ok (some sEx3) := rfl

/-- C1 witness: the amended invariant evaluated on a concrete reachable
board. -/
theorem C1_remaining_invariant_witness :
    sEx5.remainingNonMineCells = (unrevNonMine sEx5 : Int) :=
  (C1_remaining_invariant sEx5 sEx5_reachable).1 (by decide)

/-- The lost state obtained by clicking the mine of `sEx5`. -/
def tLost : State := revealCell sEx5 0 3 7

theorem tLost_reachable : Reachable tLost :=
  Reachable.reveal sEx5 0 3 7 sEx5_reachable

/-- C1 counterexample: the boundary construction on one cell with one mine
is reachable, has `remainingNonMineCells = 0`, and yet is not Won; and a
reachable Lost state has `remainingNonMineCells = 4` while zero non-mine
cells remain unrevealed.  Both refute the claim as stated. -/
theorem C1_remaining_counterexample :
    (Reachable sEx1 ∧ sEx1.remainingNonMineCells = 0 ∧
      sEx1.gameState ≠ .won) ∧
    (Reachable tLost ∧ tLost.gameState = .lost ∧
      tLost.remainingNonMineCells = 4 ∧ unrevNonMine tLost = 0) :=
  ⟨⟨Reachable.construct 1 1 1 rngC 2 0 sEx1
      (fun _ => ⟨(by decide : ((0 : Nat) : Int) < 1),
        (by decide : ((0 : Nat) : Int) < 1)⟩) sEx1_new,
    by decide, by decide⟩,
   ⟨tLost_reachable, by decide, by decide, by decide⟩⟩

/-- C2 witness: the concrete 1×5 construction has exactly one mine. -/
theorem C2_mines_and_adjacency_witness :
    (boardMines sEx5 : Int) = 1 :=
  ((C2_mines_and_adjacency.1 1 5 1 rngA 2 0 sEx5 sEx5_new
    (fun _ => ⟨(by decide : ((0 : Nat) : Int) < 1),
      (by decide : ((3 : Nat) : Int) < 5)⟩)).2.2).1

/-- C3 witness: flood-filling the concrete 1×5 board from `(0, 0)` does not
lose. -/
theorem C3_flood_fill_witness :
    (revealCell sEx5 0 0 7).gameState ≠ .lost :=
  (C3_flood_fill sEx5 0 0 7 sEx5_reachable (by decide) (by decide)
    (by decide) (by decide) (by decide)).1

/-- C3 counterexample: on the 1×3 board with a mine at `(0, 2)`, revealing
the zero cell `(0, 0)` completes the win condition, and `revealAllCells`
additionally reveals the mine `(0, 2)` — a cell that was unrevealed, is not
in the zero-region of `(0, 0)`, and is not in its border.  The revealed set
therefore grows beyond the region plus its numbered border, refuting the
claim's "and nothing beyond". -/
theorem C3_flood_fill_counterexample :
    Reachable sEx3 ∧ sEx3.gameState = .playing ∧
    isValidPosition sEx3 0 0 ∧ (cellAt sEx3 0 0).isRevealed = false ∧
    (cellAt sEx3 0 0).isMine = false ∧
    (cellAt sEx3 0 0).adjacentMines = 0 ∧
    ((revealCell sEx3 0 0 7).board 0 2).isRevealed = true ∧
    (sEx3.board 0 2).isRevealed = false ∧
    ¬inZeroRegion sEx3 (0, 0) (0, 2) ∧ ¬inBorder sEx3 (0, 0) (0, 2) := by
  refine ⟨Reachable.construct 1 3 1 rngD 2 0 sEx3
      (fun _ => ⟨(by decide : ((0 : Nat) : Int) < 1),
        (by decide : ((2 : Nat) : Int) < 3)⟩) sEx3_new,
    by decide, by decide, by decide, by decide, by decide, by decide,
    by decide, ?_, ?_⟩
  · intro hreg
    rcases Relation.ReflTransGen.cases_tail hreg with heq | ⟨c, _, hstep⟩
    · exact absurd heq (by decide)
    · obtain ⟨_, hm, _⟩ := hstep.2.1
      exact absurd hm (by decide)
  · rintro ⟨hg, q, hreg, hmoore⟩
    have hq : q = (0, 0) := by
      rcases Relation.ReflTransGen.cases_tail hreg with heq | ⟨c, _, hstep⟩
      · exact heq
      · obtain ⟨hgq, hmq, haq⟩ := hstep.2.1
        rcases q with ⟨a, b⟩
        rw [mem_grid] at hgq
        dsimp only at hgq hmq haq
        have hrows : sEx3.rows = 1 := by decide
        have hcols : sEx3.cols = 3 := by decide
        rw [hrows, hcols] at hgq
        have ha : a = 0 := by omega
        subst ha
        have hb : b = 0 ∨ b = 1 ∨ b = 2 := by omega
        rcases hb with hb | hb | hb <;> subst hb
        · rfl
        · exact absurd haq (by decide)
        · exact absurd hmq (by decide)
    subst hq
    exact absurd hmoore (by decide)

/-- C4 witness: clicking the mine of the concrete 1×5 board loses and
records the hit coordinates. -/
theorem C4_reveal_mine_witness :
    (revealCell sEx5 0 3 7).gameState = .lost ∧
    (revealCell sEx5 0 3 7).hitMineCoordinates = some (0, 3) := by
  have h := C4_reveal_mine sEx5 0 3 7 (by decide) (by decide) (by decide)
    (by decide)
  exact ⟨h.1, h.2.1⟩

/-- C5 witness: revealing the last non-mine cell of the concrete 1×2 board
wins. -/
theorem C5_reveal_last_witness :
    (revealCell sEx2 0 0 7).gameState = .won :=
  (C5_reveal_last sEx2 0 0 7 sEx2_reachable (by decide) (by decide)
    (by decide) (by decide) (by decide)).1

/-- C6 witness: an out-of-bounds click is a no-op. -/
theorem C6_reveal_noop_witness : revealCell sEx5 9 9 3 = sEx5 :=
  C6_reveal_noop sEx5 9 9 3 (Or.inr (Or.inl (by decide)))

/-- The state produced by resetting `tLost`. -/
def sReset : State := (initializeNewGame 1 5 1 rngA 2 9).getD emptyState

theorem tLost_reset : resetGame tLost rngA 2 9 = .ok (some sReset) := rfl

/-- C7 witness: resetting a concrete lost game yields a fresh playing
state with cleared end time. -/
theorem C7_resetGame_witness :
    sReset.gameState = .playing ∧ sReset.endTime = none := by
  have h := C7_resetGame.2 tLost rngA 2 9 sReset tLost_reset
    (fun _ => ⟨(by decide : (0 : Nat) < 1), (by decide : (3 : Nat) < 5)⟩)
  exact ⟨h.1, h.2.1⟩

/-- C8 witness: an unrevealed cell of the concrete board resolves to
`cell_hidden`. -/
theorem C8_image_keys_witness :
    getCellImage sEx5 0 0 = some .cellHidden :=
  (C8_image_keys sEx5 0 0).2.1 (by decide) (by decide)

/-- C9 witness: fuel 6 suffices on the concrete board with 5 unrevealed
cells. -/
theorem C9_termination_witness :
    (revealCellF 7 6 sEx5 0 0).isSome :=
  (C9_termination sEx5 0 0 7 6 (by decide)).1

/-- C10 witness: the concrete playing board hides its mines. -/
theorem C10_mines_hidden_witness : MinesHidden sEx5 :=
  (C10_mines_hidden sEx5 sEx5_reachable (by decide)).1

end Minesweeper
